import Mathlib

/-!
# newBubble.c — bubble sort of the lines of a text file

A shallow embedding of `src/newBubble.c` (`main`, `readArray`, `sortArray`,
`swapStrings`, `writeArray`) and the properties its specification states.

Conventions of the embedding

* A byte is a natural number (an `unsigned char` value); a C string is the list
  of the bytes that precede its terminating NUL.
* An `int` is an `Int`; `count` stays an `Int` wherever the C code declares it so.
* Reading an array slot that does not exist is undefined behaviour in C; the
  embedding returns `none` there.
* A file is the list of its bytes; a stream is the list of the bytes not yet
  read.
* Loops are recursive functions: a `for` loop over its number of iterations
  left, the `while` loop of `sortArray` by well-founded recursion.
-/

namespace NewBubble

/-- A C string: the bytes before the terminating NUL. -/
abbrev Str := List Nat

/-! ## `strcmp` -/

/-- The C library `strcmp`: the strings are compared byte by byte as
`unsigned char`; the result has the sign of the difference of the first pair
of bytes that differ, the end of a string counting as the byte 0. -/
def strcmp : Str → Str → Int
  | [], [] => 0
  | [], b :: _ => 0 - (b : Int)
  | a :: _, [] => (a : Int) - 0
  | a :: s, b :: t => if a = b then strcmp s t else (a : Int) - (b : Int)

/-! ## `swapStrings` and `sortArray` -/

/-- The function `swapStrings(array, i, j)`: exchanges the pointers in slots `i` and `j`. -/
def swapStrings (array : List Str) (i j : Nat) : Option (List Str) :=
  match array[i]?, array[j]? with
  | some tempPtr, some aj => some ((array.set i aj).set j tempPtr)
  | _, _ => none

/-- State of the inner `for` loop of `sortArray`: the array, `swapCount`, and
two ghost counters (calls of `strcmp`, calls of `swapStrings`). -/
structure ForState where
  array : List Str
  swapCount : Nat
  comparisons : Nat
  deriving DecidableEq, Repr

/-- The loop `for (i = …; i < count-1; i++)` of `sortArray`, from index `i`
with `n` iterations left (`n = count - 1 - i`). -/
def sortArrayFor : Nat → Nat → ForState → Option ForState
  | 0, _, st => some st
  | n + 1, i, st =>
    match st.array[i]?, st.array[i + 1]? with
    | some x, some y =>
      if strcmp x y > 0 then
        match swapStrings st.array i (i + 1) with
        | some array' =>
          sortArrayFor n (i + 1) ⟨array', st.swapCount + 1, st.comparisons + 1⟩
        | none => none
      else
        sortArrayFor n (i + 1) ⟨st.array, st.swapCount, st.comparisons + 1⟩
    | _, _ => none

/-- Number of pairs of positions `i < j` whose strings are out of order
(`strcmp array[i] array[j] > 0`). -/
def inversions : List Str → Nat
  | [] => 0
  | a :: l => List.countP (fun b => decide (strcmp a b > 0)) l + inversions l

/-- The sign of `strcmp` is antisymmetric in its sign: exchanging the arguments negates it. -/
theorem strcmp_swap (a b : Str) : strcmp b a = - strcmp a b := by
  induction a generalizing b with
  | nil => cases b <;> simp [strcmp]
  | cons x s ih =>
    cases b with
    | nil => simp [strcmp]
    | cons y t =>
      by_cases h : x = y
      · subst h; simp [strcmp, ih]
      · have h' : ¬ y = x := fun e => h e.symm
        simp [strcmp, h, h']

/-- Exchanging an adjacent out-of-order pair removes exactly one inversion. -/
theorem inversions_swap_adjacent (pre post : List Str) (a b : Str)
    (hab : strcmp a b > 0) :
    inversions (pre ++ b :: a :: post) + 1 = inversions (pre ++ a :: b :: post) := by
  induction pre with
  | nil =>
    have hba : ¬ strcmp b a > 0 := by rw [strcmp_swap a b]; omega
    simp [inversions, List.countP_cons, hab, hba]
    omega
  | cons c pre ih =>
    have hp : (pre ++ b :: a :: post).Perm (pre ++ a :: b :: post) :=
      List.Perm.append_left pre (List.Perm.swap a b post)
    have hc := hp.countP_eq (fun b => decide (strcmp c b > 0))
    simp only [List.cons_append, inversions, List.append_eq, hc]
    omega

/-- The two slots read by one iteration split the array around them, and the
two `set`s of `swapStrings` exchange them. -/
theorem swap_adjacent_decomp (array : List Str) (i : Nat) (a b : Str)
    (ha : array[i]? = some a) (hb : array[i + 1]? = some b) :
    ∃ pre post, array = pre ++ a :: b :: post ∧ pre.length = i ∧
      (array.set i b).set (i + 1) a = pre ++ b :: a :: post := by
  induction array generalizing i with
  | nil => simp at ha
  | cons c l ih =>
    cases i with
    | zero =>
      cases l with
      | nil => simp at hb
      | cons d l =>
        simp at ha hb
        subst ha; subst hb
        exact ⟨[], l, by simp⟩
    | succ i =>
      simp at ha hb
      obtain ⟨pre, post, h1, h2, h3⟩ := ih i ha hb
      refine ⟨c :: pre, post, by simp [h1], by simp [h2], ?_⟩
      simp [List.set_cons_succ, h3]

/-- Each swap of the `for` loop removes one inversion: the inversions lost over
the loop equal the increase of `swapCount`. -/
theorem sortArrayFor_inversions (n i : Nat) (st st' : ForState)
    (h : sortArrayFor n i st = some st') :
    inversions st'.array + st'.swapCount = inversions st.array + st.swapCount := by
  induction n generalizing i st with
  | zero => simp [sortArrayFor] at h; subst h; rfl
  | succ n ih =>
    unfold sortArrayFor at h
    split at h
    · rename_i x y hx hy
      split at h
      · rename_i hgt
        simp only [swapStrings, hx, hy] at h
        have := ih _ _ h
        obtain ⟨pre, post, h1, _, h3⟩ := swap_adjacent_decomp st.array i x y hx hy
        have hinv := inversions_swap_adjacent pre post x y hgt
        simp only at this
        rw [h3] at this
        rw [h1]
        omega
      · have := ih _ _ h
        simpa using this
    · simp at h

/-- State of the `while` loop of `sortArray`, with ghost counters for the
number of passes, of `strcmp` calls and of `swapStrings` calls so far. -/
structure SortState where
  array : List Str
  swapCount : Nat
  passes : Nat
  comparisons : Nat
  swaps : Nat
  deriving DecidableEq, Repr

/-- The loop `while (swapCount > 0) { swapCount = 0; for … }` of `sortArray`. -/
def sortArrayWhile (count : Int) (st : SortState) : Option SortState :=
  if st.swapCount > 0 then
    match h : sortArrayFor (count - 1).toNat 0 ⟨st.array, 0, 0⟩ with
    | some fs =>
      sortArrayWhile count
        ⟨fs.array, fs.swapCount, st.passes + 1, st.comparisons + fs.comparisons,
          st.swaps + fs.swapCount⟩
    | none => none
  else
    some st
termination_by (if st.swapCount > 0 then inversions st.array + 1 else 0)
decreasing_by
  have hi := sortArrayFor_inversions _ _ _ _ h
  simp only at hi
  simp_wf
  split <;> omega

/-- The function `sortArray(array, count)`: bubble sort with early termination.  The result
holds the array as the function leaves it and the ghost counters. -/
def sortArray (array : List Str) (count : Int) : Option SortState :=
  sortArrayWhile count ⟨array, 1, 0, 0, 0⟩

/-! ## The C library: `fgets`, `strlen`, `sscanf`, `fprintf`, `calloc` -/

/-- Body of `fgets`: copies bytes of the stream until `k` bytes are stored, a
newline has been stored, or the stream ends; returns the bytes stored and the
rest of the stream. -/
def fgetsAux : Nat → List Nat → List Nat × List Nat
  | 0, fp => ([], fp)
  | _ + 1, [] => ([], [])
  | k + 1, c :: fp =>
    if c = 10 then ([c], fp) else ((fgetsAux k fp).1.cons c, (fgetsAux k fp).2)

/-- The call `fgets(buf, size, fp)` on a stream with bytes `fp` left: `none` is
the NULL returned at end of file; otherwise the bytes put in `buf` (at most
`size - 1`, ending with the first newline met) and the rest of the stream. -/
def fgets (size : Nat) (fp : List Nat) : Option (List Nat × List Nat) :=
  match fp with
  | [] => none
  | _ :: _ => some (fgetsAux (size - 1) fp)

/-- The C string held by a buffer: its bytes up to the first NUL (what
`strlen`, `sscanf` and `strdup` see). -/
def cstr (buf : List Nat) : Str := buf.takeWhile (fun c => c ≠ 0)

/-- The C library `isspace` in the C locale. -/
def isspace (c : Nat) : Bool := c = 32 || (9 ≤ c && c ≤ 13)

/-- The C library `isdigit`. -/
def isdigit (c : Nat) : Bool := 48 ≤ c && c ≤ 57

/-- Storing a value in an `int` of 32 bits (two's complement). -/
def toInt32 (v : Int) : Int := (v + 2 ^ 31) % 2 ^ 32 - 2 ^ 31

/-- Value of a run of decimal digits. -/
def digitsValue (ds : List Nat) : Nat := ds.foldl (fun acc d => 10 * acc + (d - 48)) 0

/-- The sign accepted by `%d`: an optional `-` or `+`; returns whether the
number is negative and the text after the sign. -/
def scanSign : Str → Bool × Str
  | 45 :: r => (true, r)
  | 43 :: r => (false, r)
  | s => (false, s)

/-- The call `sscanf(s, "%d", &count)`: white space is skipped, then an optional
sign and the longest run of digits are converted.  `some v` is the value
assigned to `count`; `none` means that nothing was assigned (no digit found). -/
def sscanf_d (s : Str) : Option Int :=
  let afterSign := scanSign (s.dropWhile isspace)
  let ds := afterSign.2.takeWhile isdigit
  if ds = [] then none
  else some (toInt32 (if afterSign.1 then - (digitsValue ds : Int) else (digitsValue ds : Int)))

/-- Decimal digits of `n` (ASCII, most significant first) put in front of
`acc`; `fuel` bounds the number of digits. -/
def decimalAux : Nat → Nat → List Nat → List Nat
  | 0, _, acc => acc
  | fuel + 1, n, acc =>
    if n < 10 then (48 + n) :: acc else decimalAux fuel (n / 10) ((48 + n % 10) :: acc)

/-- Text printed by the conversion `%d`. -/
def fmt_d (v : Int) : List Nat :=
  if v < 0 then 45 :: decimalAux (v.natAbs + 1) v.natAbs []
  else decimalAux (v.natAbs + 1) v.natAbs []

/-- The call `calloc(nmemb, size)` with `heap` bytes available: it fails when
the product does not fit `size_t` (64 bits) or exceeds what is available. -/
def calloc (heap nmemb size : Nat) : Bool :=
  decide (nmemb * size < 2 ^ 64) && decide (nmemb * size ≤ heap)

/-- The call `calloc(count, sizeof(char*))` of `main`: `count` goes to `size_t`
(64 bits), a pointer takes 8 bytes. -/
def callocData (heap : Nat) (count : Int) : Bool :=
  calloc heap (count % 2 ^ 64).toNat 8

/-! ## `readArray` -/

/-- Result of `readArray`: the returned `bOk`, the slots `array[0..]` filled
(the slots after them keep the NULL of `calloc`), and the rest of the stream. -/
structure ReadResult where
  bOk : Int
  array : List Str
  pFp : List Nat
  deriving DecidableEq, Repr

/-- The line as `readArray` stores it: `len = strlen(inputLine)`, and the byte
`inputLine[len-1]` is cleared when it is a newline.  (For `len = 0` that byte
lies outside the string; the string stored is empty either way.) -/
def stripNewline (inputLine : List Nat) : Str :=
  if (cstr inputLine).getLast? = some 10 then (cstr inputLine).dropLast else cstr inputLine

/-- The loop `for (i = …; i < count; i++)` of `readArray` with `n` iterations
left; `array` holds the slots filled so far (`i = array.length`).  `strdup` is
taken to succeed, and `fgets` to fail only at the end of the file. -/
def readArrayFor : Nat → List Str → List Nat → ReadResult
  | 0, array, pFp => ⟨1, array, pFp⟩
  | n + 1, array, pFp =>
    match fgets 128 pFp with
    | none => ⟨0, array, pFp⟩
    | some (inputLine, pFp') => readArrayFor n (array ++ [stripNewline inputLine]) pFp'

/-- The function `readArray(array, count, pFp)`; the array is returned in the
result. -/
def readArray (count : Int) (pFp : List Nat) : ReadResult :=
  readArrayFor count.toNat [] pFp

/-! ## `writeArray` -/

/-- What a run does to the output file. -/
inductive FileEffect where
  | unchanged
  | written (bytes : List Nat)
  deriving DecidableEq, Repr

/-- The loop `for (i = …; i < count; i++) fprintf(pOutfile, "%s\n", array[i])`
of `writeArray` with `n` iterations left: the bytes printed. -/
def writeArrayFor : Nat → Nat → List Str → Option (List Nat)
  | 0, _, _ => some []
  | n + 1, i, array =>
    match array[i]?, writeArrayFor n (i + 1) array with
    | some s, some rest => some (s ++ 10 :: rest)
    | _, _ => none

/-- The function `writeArray(array, count, outputFilename)`; `opens` tells whether
`fopen(outputFilename, "w")` succeeds.  When it fails only a message goes to
the standard error stream. -/
def writeArray (array : List Str) (count : Int) (opens : Bool) : Option FileEffect :=
  if opens then
    match writeArrayFor count.toNat 0 array with
    | some lines => some (FileEffect.written (fmt_d count ++ 32 :: 10 :: lines))
    | none => none
  else
    some FileEffect.unchanged

/-! ## `main` -/

/-- The environment of a run: the bytes of the file named by `argv[1]` (`none`
when it cannot be opened for reading), whether the file named by `argv[2]` can
be opened for writing, and the number of bytes `calloc` can provide. -/
structure World where
  input : Option (List Nat)
  outputOpens : Bool
  heap : Nat

/-- The calls of a run that the properties below speak about. -/
inductive Event where
  | fopenInput
  | fcloseInput
  | calloc
  | freeData
  | readArray
  | sortArray
  | writeArray
  deriving DecidableEq, Repr

/-- How a run ends: the exit status, the effect on the output file, and the
calls made, in order. -/
structure Exit where
  status : Int
  output : FileEffect
  events : List Event
  deriving DecidableEq, Repr

/-- The value of `count` after `sscanf(inputLine, "%d", &count)`, `count` being
0 before the call. -/
def headerCount (inputLine : List Nat) : Int :=
  match sscanf_d (cstr inputLine) with
  | some v => v
  | none => 0

/-- The function `main`.  The files are given by the `World` instead of their
names; the messages printed and the timing of the sort are left out.  A `main`
that reaches its closing brace returns 0. -/
def main (argc : Int) (w : World) : Option Exit :=
  if argc ≠ 3 then some ⟨1, .unchanged, []⟩
  else
    match w.input with
    | none => some ⟨1, .unchanged, []⟩
    | some pInfile =>
      match fgets 128 pInfile with
      | none => some ⟨2, .unchanged, [.fopenInput]⟩
      | some (inputLine, pInfile) =>
        let count := headerCount inputLine
        if count = 0 then some ⟨3, .unchanged, [.fopenInput]⟩
        else if callocData w.heap count = false then
          some ⟨4, .unchanged, [.fopenInput, .calloc]⟩
        else
          let r := readArray count pInfile
          if r.bOk = 0 then
            some ⟨5, .unchanged,
              [.fopenInput, .calloc, .readArray, .fcloseInput, .freeData]⟩
          else
            match sortArray r.array count with
            | none => none
            | some sorted =>
              match writeArray sorted.array count w.outputOpens with
              | none => none
              | some effect =>
                some ⟨0, effect,
                  [.fopenInput, .calloc, .readArray, .fcloseInput, .sortArray,
                    .writeArray, .freeData]⟩

/-- The bytes of a text given as a Lean string (for examples). -/
def bytes (s : String) : List Nat := s.toList.map Char.toNat

/-- The slots `j` and `j+1` are in order for every `j` with `i ≤ j < i + n`. -/
def AdjSorted (array : List Str) (i n : Nat) : Prop :=
  ∀ j, i ≤ j → j < i + n → ∀ x y, array[j]? = some x → array[j + 1]? = some y →
    strcmp x y ≤ 0

/-- At most `fuel` iterations of the `while` loop of `sortArray`, by structural
recursion: `none` when the fuel runs out, else the result of the loop. -/
def sortArrayIter : Nat → Int → SortState → Option (Option SortState)
  | 0, _, _ => none
  | fuel + 1, count, st =>
    if st.swapCount > 0 then
      match sortArrayFor (count - 1).toNat 0 ⟨st.array, 0, 0⟩ with
      | some fs =>
        sortArrayIter fuel count
          ⟨fs.array, fs.swapCount, st.passes + 1, st.comparisons + fs.comparisons,
            st.swaps + fs.swapCount⟩
      | none => some none
    else some (some st)

/-- A line of text that fits the line buffer of 128 bytes with its newline: it
holds no NUL byte, no newline, and at most 126 bytes. -/
def TextLine (l : Str) : Prop := 0 ∉ l ∧ 10 ∉ l ∧ l.length + 1 ≤ 127

instance (l : Str) : Decidable (TextLine l) := by
  unfold TextLine; exact inferInstance

/-- The bytes of a file made of the given lines, each ended by a newline. -/
def joinLines : List Str → List Nat
  | [] => []
  | l :: ls => l ++ 10 :: joinLines ls

/-- Number of calls `fgets(buf, 128, fp)` that succeed before the stream is
exhausted, counted with `fuel` calls at most. -/
def readsLeftAux : Nat → List Nat → Nat
  | 0, _ => 0
  | fuel + 1, fp =>
    match fgets 128 fp with
    | none => 0
    | some (_, fp') => readsLeftAux fuel fp' + 1

/-- Number of lines `fgets(buf, 128, fp)` can still read from the stream (each
call takes at least one byte, so the length of the stream is fuel enough). -/
def readsLeft (fp : List Nat) : Nat := readsLeftAux fp.length fp

/-- The load done by `main` on a file with bytes `f`: the first line gives
`count = n`, and `readArray` then returns 1 with the slots `data`, at the end of
the file. -/
def LoadsAs (f : List Nat) (n : Int) (data : List Str) : Prop :=
  ∃ inputLine body, fgets 128 f = some (inputLine, body) ∧ headerCount inputLine = n ∧
    readArray n body = ⟨1, data, []⟩

/-- The first line `main` reads and the stream after it, when the input file
opens and is not empty. -/
def headerOf (w : World) : Option (List Nat × List Nat) :=
  match w.input with
  | none => none
  | some pInfile => fgets 128 pInfile

/-- Reference insertion: `s` put into a list before the first string that
does not come before it in byte-wise order. -/
def insertByStrcmp (s : Str) : List Str → List Str
  | [] => [s]
  | t :: l => if strcmp s t ≤ 0 then s :: t :: l else t :: insertByStrcmp s l

/-- Reference sort, after the words of the specification: the insertion sort
of the record set under byte-wise string order. -/
def referenceSort : List Str → List Str
  | [] => []
  | s :: l => insertByStrcmp s (referenceSort l)

/-- One pass of the `for` loop seen on the list: the strings left behind, in
order, when the pass carries `a` through `l`. -/
def bubbleInit : Str → List Str → List Str
  | _, [] => []
  | a, b :: l => if strcmp a b > 0 then b :: bubbleInit a l else a :: bubbleInit b l

/-- One pass of the `for` loop seen on the list: the string the pass carries to
the last slot. -/
def bubbleLast : Str → List Str → Str
  | a, [] => a
  | a, b :: l => if strcmp a b > 0 then bubbleLast a l else bubbleLast b l

/-- Number of swaps of one pass that carries `a` through `l`. -/
def bubbleSwaps : Str → List Str → Nat
  | _, [] => 0
  | a, b :: l => if strcmp a b > 0 then bubbleSwaps a l + 1 else bubbleSwaps b l

/-- The last `k` slots hold, in order, strings that no string before them
exceeds: they are in their final positions. -/
def TailSorted (k : Nat) (array : List Str) : Prop :=
  ∃ front back, array = front ++ back ∧ back.length = k ∧
    back.Pairwise (fun x y => strcmp x y ≤ 0) ∧
    ∀ x ∈ front, ∀ y ∈ back, strcmp x y ≤ 0

/-! ## Properties of the sort -/

/-- One unfolding of the `while` loop. -/
theorem sortArrayWhile_eq (count : Int) (st : SortState) :
    sortArrayWhile count st =
      if st.swapCount > 0 then
        match sortArrayFor (count - 1).toNat 0 ⟨st.array, 0, 0⟩ with
        | some fs =>
          sortArrayWhile count
            ⟨fs.array, fs.swapCount, st.passes + 1, st.comparisons + fs.comparisons,
              st.swaps + fs.swapCount⟩
        | none => none
      else some st := by
  rw [sortArrayWhile]
  split
  · split <;> simp_all
  · rfl

/-- The bounded unrolling computes the loop whenever its fuel suffices. -/
theorem sortArrayWhile_of_iter (fuel : Nat) (count : Int) (st : SortState)
    (r : Option SortState) (h : sortArrayIter fuel count st = some r) :
    sortArrayWhile count st = r := by
  induction fuel generalizing st with
  | zero => simp [sortArrayIter] at h
  | succ fuel ih =>
    rw [sortArrayWhile_eq]
    unfold sortArrayIter at h
    split at h
    · rename_i hpos
      rw [if_pos hpos]
      split at h
      · exact ih _ h
      · exact Option.some.inj h
    · rename_i hneg
      rw [if_neg hneg]
      simpa using h

/-- The `for` loop permutes the array, calls `strcmp` once per iteration and
never decreases `swapCount`. -/
theorem sortArrayFor_spec (n i : Nat) (st st' : ForState)
    (h : sortArrayFor n i st = some st') :
    st'.array.Perm st.array ∧ st'.comparisons = st.comparisons + n ∧
      st.swapCount ≤ st'.swapCount := by
  induction n generalizing i st with
  | zero => simp [sortArrayFor] at h; subst h; simp
  | succ n ih =>
    unfold sortArrayFor at h
    split at h
    · rename_i x y hx hy
      split at h
      · simp only [swapStrings, hx, hy] at h
        obtain ⟨h1, h2, h3⟩ := ih _ _ h
        obtain ⟨pre, post, e1, _, e3⟩ := swap_adjacent_decomp st.array i x y hx hy
        simp only at h1 h2 h3
        refine ⟨?_, by omega, by omega⟩
        rw [e3] at h1
        rw [e1]
        exact h1.trans (List.Perm.append_left pre (List.Perm.swap x y post))
      · obtain ⟨h1, h2, h3⟩ := ih _ _ h
        simp only at h1 h2 h3
        exact ⟨h1, by omega, h3⟩
    · simp at h

/-- The `for` loop stays inside the array, hence is defined, when its last
index `i + n` is a slot of the array. -/
theorem sortArrayFor_isSome (n i : Nat) (st : ForState)
    (hb : n = 0 ∨ i + n < st.array.length) :
    ∃ st', sortArrayFor n i st = some st' := by
  induction n generalizing i st with
  | zero => exact ⟨st, rfl⟩
  | succ n ih =>
    have hlen : i + (n + 1) < st.array.length := by omega
    have hi : i < st.array.length := by omega
    have hi1 : i + 1 < st.array.length := by omega
    unfold sortArrayFor
    rw [List.getElem?_eq_getElem hi, List.getElem?_eq_getElem hi1]
    simp only [swapStrings, List.getElem?_eq_getElem hi, List.getElem?_eq_getElem hi1]
    split
    · apply ih
      right
      simp only [List.length_set]
      omega
    · apply ih
      right
      simp only
      omega

/-- A `for` loop that leaves `swapCount` as it was has not changed the array and
has found every pair it compared in order. -/
theorem sortArrayFor_noSwap (n i : Nat) (st st' : ForState)
    (h : sortArrayFor n i st = some st') (hs : st'.swapCount = st.swapCount) :
    st'.array = st.array ∧ AdjSorted st.array i n := by
  induction n generalizing i st with
  | zero =>
    simp [sortArrayFor] at h; subst h
    exact ⟨rfl, fun j h1 h2 => by omega⟩
  | succ n ih =>
    unfold sortArrayFor at h
    split at h
    · rename_i x y hx hy
      split at h
      · simp only [swapStrings, hx, hy] at h
        have := (sortArrayFor_spec _ _ _ _ h).2.2
        simp only at this
        omega
      · rename_i hgt
        obtain ⟨h1, h2⟩ := ih _ _ h hs
        simp only at h1 h2
        refine ⟨h1, ?_⟩
        intro j hj1 hj2 a b ha hb
        by_cases hji : j = i
        · subst hji
          rw [hx] at ha; rw [hy] at hb
          cases ha; cases hb
          omega
        · exact h2 j (by omega) (by omega) a b ha hb
    · simp at h

/-- On slots that are already in order the `for` loop swaps nothing. -/
theorem sortArrayFor_sorted (n i : Nat) (st : ForState)
    (hb : n = 0 ∨ i + n < st.array.length) (hs : AdjSorted st.array i n) :
    sortArrayFor n i st = some ⟨st.array, st.swapCount, st.comparisons + n⟩ := by
  induction n generalizing i st with
  | zero => simp [sortArrayFor]
  | succ n ih =>
    have hi : i < st.array.length := by omega
    have hi1 : i + 1 < st.array.length := by omega
    have hle := hs i (Nat.le_refl i) (by omega) _ _ (List.getElem?_eq_getElem hi)
      (List.getElem?_eq_getElem hi1)
    unfold sortArrayFor
    rw [List.getElem?_eq_getElem hi, List.getElem?_eq_getElem hi1]
    simp only
    rw [if_neg (by omega)]
    rw [ih (i + 1) ⟨st.array, st.swapCount, st.comparisons + 1⟩ (by right; simp only; omega)
      (fun j h1 h2 => hs j (by omega) (by omega))]
    simp only [ForState.mk.injEq, Option.some.injEq, true_and]
    omega

/-- The `while` loop ends, for every array with at least `count` slots: its
result permutes the array, has `swapCount = 0`, is the state given when the
loop is not entered, and has its first `count` slots in order when it is. -/
theorem sortArrayWhile_spec (count : Int) (m : Nat) (st : SortState)
    (hm : (if st.swapCount > 0 then inversions st.array + 1 else 0) ≤ m)
    (hc : count ≤ st.array.length) :
    ∃ r, sortArrayWhile count st = some r ∧ r.array.Perm st.array ∧ r.swapCount = 0 ∧
      (st.swapCount = 0 → r = st) ∧
      (0 < st.swapCount → AdjSorted r.array 0 (count - 1).toNat) := by
  induction m generalizing st with
  | zero =>
    have h0 : ¬ st.swapCount > 0 := by
      intro hpos; rw [if_pos hpos] at hm; omega
    rw [sortArrayWhile_eq, if_neg h0]
    exact ⟨st, rfl, List.Perm.refl _, by omega, fun _ => rfl, fun h => by omega⟩
  | succ m ih =>
    rw [sortArrayWhile_eq]
    by_cases hpos : st.swapCount > 0
    · rw [if_pos hpos] at hm
      rw [if_pos hpos]
      obtain ⟨fs, hfs⟩ := sortArrayFor_isSome (count - 1).toNat 0 ⟨st.array, 0, 0⟩
        (by simp only; omega)
      rw [hfs]
      have hinv := sortArrayFor_inversions _ _ _ _ hfs
      obtain ⟨hperm, _, _⟩ := sortArrayFor_spec _ _ _ _ hfs
      simp only at hinv hperm
      have hlen := hperm.length_eq
      obtain ⟨r, hr, hrp, hr0, hrst, hrs⟩ := ih
        ⟨fs.array, fs.swapCount, st.passes + 1, st.comparisons + fs.comparisons,
          st.swaps + fs.swapCount⟩
        (by simp only; split <;> omega) (by simp only; omega)
      simp only at hrp hrst hrs
      refine ⟨r, hr, hrp.trans hperm, hr0, fun h => by omega, fun _ => ?_⟩
      by_cases hfs0 : fs.swapCount = 0
      · obtain ⟨he, hsorted⟩ := sortArrayFor_noSwap _ _ _ _ hfs (by simpa using hfs0)
        simp only at he hsorted
        rw [hrst hfs0]
        simpa [he] using hsorted
      · exact hrs (by omega)
    · rw [if_neg hpos]
      exact ⟨st, rfl, List.Perm.refl _, by omega, fun _ => rfl, fun h => by omega⟩

/-- For an array of `count` slots `sortArray` returns, with a permutation of the
array whose adjacent slots are all in order. -/
theorem sortArray_spec (R : List Str) :
    ∃ r, sortArray R R.length = some r ∧ r.array.Perm R ∧
      AdjSorted r.array 0 R.length := by
  obtain ⟨r, hr, hp, _, _, hs⟩ := sortArrayWhile_spec (R.length : Int) (inversions R + 1)
    ⟨R, 1, 0, 0, 0⟩ (by simp) (by simp)
  refine ⟨r, hr, hp, ?_⟩
  have hs := hs (by simp)
  intro j h1 h2 x y hx hy
  have hj : j + 1 < r.array.length := by
    rcases Nat.lt_or_ge (j + 1) r.array.length with h | h
    · exact h
    · rw [List.getElem?_eq_none h] at hy; cases hy
  have hl := hp.length_eq
  simp only at hl
  exact hs j h1 (by omega) x y hx hy

/-- On an array whose adjacent slots are in order `sortArray` makes one pass of
`count - 1` comparisons, swaps nothing and leaves the array as it is. -/
theorem sortArray_of_sorted (R : List Str) (hs : AdjSorted R 0 R.length) :
    sortArray R R.length = some ⟨R, 0, 1, R.length - 1, 0⟩ := by
  have hfor := sortArrayFor_sorted ((R.length : Int) - 1).toNat 0 ⟨R, 0, 0⟩
    (by simp only; omega) (fun j h1 h2 => hs j h1 (by omega))
  rw [sortArray, sortArrayWhile_eq]
  simp only [gt_iff_lt, Nat.lt_one_iff, Nat.zero_lt_one, if_true, hfor]
  rw [sortArrayWhile_eq]
  simp only [gt_iff_lt, Nat.lt_irrefl, if_false, Nat.zero_add, Option.some.injEq,
    SortState.mk.injEq, true_and, and_true]
  omega

/-- A string comes before or with each of its extensions under `strcmp`. -/
theorem strcmp_prefix (p q : Str) : strcmp p (p ++ q) ≤ 0 := by
  induction p with
  | nil => cases q <;> simp [strcmp]
  | cons a p ih => simpa [strcmp] using ih

/-- A string comes strictly before each of its proper extensions under `strcmp`
(the byte that follows the prefix is not NUL). -/
theorem strcmp_proper_prefix (p t : Str) (c : Nat) (hc : 0 < c) :
    strcmp p (p ++ c :: t) < 0 := by
  induction p with
  | nil => simp only [List.nil_append, strcmp]; omega
  | cons a p ih => simpa [strcmp] using ih

/-! ## The claims about `sortArray` -/

/-- C1: for every record set `R`, with `count` the length of `R`, `sortArray`
returns and the array it leaves is a permutation of `R`: every string occurs in
it exactly as many times as in `R`. -/
theorem sortArray_permutation (R : List Str) :
    ∃ r, sortArray R R.length = some r ∧ r.array.Perm R ∧
      ∀ s : Str, r.array.countP (fun x => decide (x = s)) =
        R.countP (fun x => decide (x = s)) := by
  obtain ⟨r, hr, hp, _⟩ := sortArray_spec R
  exact ⟨r, hr, hp, fun s => hp.countP_eq _⟩

/-- C2: for every record set `R`, after `sortArray` every adjacent pair is in
non-decreasing order, `strcmp(array[i], array[i+1]) ≤ 0` for all `i` from 0 to
`len(R) - 2`; `strcmp` is the byte-wise comparison, which puts a prefix before
its extensions. -/
theorem sortArray_adjacent_ordered (R : List Str) :
    ∃ r, sortArray R R.length = some r ∧ r.array.length = R.length ∧
      (∀ (i : Nat) (h : i + 1 < r.array.length),
        strcmp (r.array.get ⟨i, Nat.lt_of_succ_lt h⟩) (r.array.get ⟨i + 1, h⟩) ≤ 0) ∧
      (∀ p q : Str, strcmp p (p ++ q) ≤ 0) ∧
      (∀ (p t : Str) (c : Nat), 0 < c → strcmp p (p ++ c :: t) < 0) := by
  obtain ⟨r, hr, hp, hs⟩ := sortArray_spec R
  refine ⟨r, hr, hp.length_eq, ?_, strcmp_prefix, strcmp_proper_prefix⟩
  intro i h
  have hl := hp.length_eq
  exact hs i (Nat.zero_le i) (by omega) _ _
    (List.getElem?_eq_getElem (Nat.lt_of_succ_lt h)) (List.getElem?_eq_getElem h)

/-- C10: idempotence: for every record set `R`, `sortArray` applied to the array
that `sortArray` left returns with that array unchanged. -/
theorem sortArray_idempotent (R : List Str) :
    ∃ r r', sortArray R R.length = some r ∧
      sortArray r.array R.length = some r' ∧ r'.array = r.array := by
  obtain ⟨r, hr, hp, hs⟩ := sortArray_spec R
  have hl : r.array.length = R.length := hp.length_eq
  have h2 := sortArray_of_sorted r.array (by rw [hl]; exact hs)
  rw [hl] at h2
  exact ⟨r, _, hr, h2, rfl⟩

/-! ## Properties of the library functions and of `readArray` -/

/-- The function `fgetsAux` splits the stream: what it stores followed by what it leaves. -/
theorem fgetsAux_append (k : Nat) (fp : List Nat) :
    (fgetsAux k fp).1 ++ (fgetsAux k fp).2 = fp := by
  induction k generalizing fp with
  | zero => simp [fgetsAux]
  | succ k ih =>
    cases fp with
    | nil => simp [fgetsAux]
    | cons c fp =>
      unfold fgetsAux
      split
      · simp
      · simp [ih fp]

/-- A successful `fgets` takes at least one byte off the stream. -/
theorem fgets_length_lt (fp inputLine fp' : List Nat)
    (h : fgets 128 fp = some (inputLine, fp')) : fp'.length < fp.length := by
  cases fp with
  | nil => simp [fgets] at h
  | cons c fp =>
    simp only [fgets, Option.some.injEq] at h
    have h2 : (fgetsAux 127 (c :: fp)).2 = fp' := by rw [h]
    rw [← h2]
    unfold fgetsAux
    split
    · simp
    · have := congrArg List.length (fgetsAux_append 126 fp)
      simp only [List.length_append] at this
      simp only [List.length_cons]
      omega

/-- The function `fgetsAux` on a line that fits: it stores the line with its newline. -/
theorem fgetsAux_line (k : Nat) (l rest : List Nat) (hnl : 10 ∉ l) (hk : l.length < k) :
    fgetsAux k (l ++ 10 :: rest) = (l ++ [10], rest) := by
  induction l generalizing k with
  | nil =>
    cases k with
    | zero => simp at hk
    | succ k => simp [fgetsAux]
  | cons c l ih =>
    cases k with
    | zero => simp at hk
    | succ k =>
      have hc : ¬ c = 10 := fun e => hnl (by simp [e])
      have hl : 10 ∉ l := fun e => hnl (by simp [e])
      simp only [List.cons_append, fgetsAux, hc, if_false, List.append_eq]
      rw [ih k hl (by simpa using hk)]

/-- The call of `fgets` on a line that fits the buffer. -/
theorem fgets_line (l rest : List Nat) (hnl : 10 ∉ l) (hk : l.length + 1 ≤ 127) :
    fgets 128 (l ++ 10 :: rest) = some (l ++ [10], rest) := by
  have h := fgetsAux_line 127 l rest hnl (by omega)
  cases l with
  | nil => simpa [fgets] using h
  | cons c l => simpa [fgets] using h

/-- A buffer without NUL byte holds itself as a string. -/
theorem cstr_of_no_nul (buf : List Nat) (h : 0 ∉ buf) : cstr buf = buf := by
  unfold cstr
  rw [List.takeWhile_eq_self_iff]
  intro c hc
  have : c ≠ 0 := fun e => h (e ▸ hc)
  simpa using this

/-- Only the newline is taken off a line read whole. -/
theorem stripNewline_line (l : Str) (h0 : 0 ∉ l) : stripNewline (l ++ [10]) = l := by
  have hc : cstr (l ++ [10]) = l ++ [10] := cstr_of_no_nul _ (by simpa using h0)
  simp [stripNewline, hc]

/-- The loop of `readArray` reads the lines of a text in order, one per slot. -/
theorem readArrayFor_lines (lines : List Str) (n : Nat) (array : List Str) (rest : List Nat)
    (hl : ∀ l ∈ lines, TextLine l) :
    readArrayFor (lines.length + n) array (joinLines lines ++ rest) =
      readArrayFor n (array ++ lines) rest := by
  induction lines generalizing array with
  | nil => simp [joinLines]
  | cons l ls ih =>
    obtain ⟨h0, hnl, hlen⟩ := hl l (by simp)
    have e : (l :: ls).length + n = (ls.length + n) + 1 := by simp; omega
    rw [e]
    simp only [joinLines, List.append_assoc, List.cons_append, readArrayFor]
    rw [fgets_line l _ hnl hlen]
    simp only [stripNewline_line l h0]
    rw [ih (array ++ [l]) (fun x hx => hl x (by simp [hx]))]
    simp

/-- The loop of `readArray` fails exactly when the stream has fewer lines left than asked. -/
theorem readArrayFor_bOk (n fuel : Nat) (array : List Str) (fp : List Nat)
    (hf : fp.length ≤ fuel) :
    ((readArrayFor n array fp).bOk = 0 ↔ readsLeftAux fuel fp < n) ∧
      ((readArrayFor n array fp).bOk = 1 ↔ n ≤ readsLeftAux fuel fp) ∧
      ((readArrayFor n array fp).bOk = 1 →
        (readArrayFor n array fp).array.length = array.length + n) := by
  induction n generalizing fuel array fp with
  | zero => simp [readArrayFor]
  | succ n ih =>
    cases fp with
    | nil =>
      cases fuel <;> simp [readArrayFor, readsLeftAux, fgets]
    | cons c fp =>
      cases fuel with
      | zero => simp at hf
      | succ fuel =>
        have hsome : ∃ p, fgets 128 (c :: fp) = some p := ⟨_, rfl⟩
        obtain ⟨⟨inputLine, fp'⟩, hp⟩ := hsome
        have hlt := fgets_length_lt _ _ _ hp
        simp only [List.length_cons] at hlt hf
        simp only [readArrayFor, readsLeftAux, hp]
        obtain ⟨h1, h2, h3⟩ := ih fuel (array ++ [stripNewline inputLine]) fp' (by omega)
        refine ⟨by rw [h1]; omega, by rw [h2]; omega, fun h => ?_⟩
        rw [h3 h]
        simp
        omega

/-- The function `fgetsAux` on a last line without newline: it stores the line whole. -/
theorem fgetsAux_unterminated (k : Nat) (l : List Nat) (hnl : 10 ∉ l) (hk : l.length ≤ k) :
    fgetsAux k l = (l, []) := by
  induction l generalizing k with
  | nil => cases k <;> simp [fgetsAux]
  | cons c l ih =>
    cases k with
    | zero => simp at hk
    | succ k =>
      have hc : ¬ c = 10 := fun e => hnl (by simp [e])
      have hl : 10 ∉ l := fun e => hnl (by simp [e])
      simp only [fgetsAux, hc, if_false]
      rw [ih k hl (by simpa using hk)]

/-- A string without newline is stored as it is. -/
theorem stripNewline_unterminated (l : Str) (h0 : 0 ∉ l) (hnl : 10 ∉ l) :
    stripNewline l = l := by
  have hc : cstr l = l := cstr_of_no_nul _ h0
  have hlast : ¬ l.getLast? = some 10 := by
    intro h
    exact hnl (List.mem_of_getLast?_eq_some h)
  simp [stripNewline, hc, hlast]

/-- Reading the lines of a text with `count` the number of lines. -/
theorem readArray_joinLines (lines : List Str) (rest : List Nat)
    (hl : ∀ l ∈ lines, TextLine l) :
    readArray lines.length (joinLines lines ++ rest) = ⟨1, lines, rest⟩ := by
  have h := readArrayFor_lines lines 0 [] rest hl
  simp only [Nat.add_zero, List.nil_append] at h
  simp only [readArray, Int.toNat_ofNat, h, readArrayFor]

/-- The value `readsLeft` of a stream is the number of lines `readArray` can get from it. -/
theorem readArray_bOk (count : Int) (fp : List Nat) :
    ((readArray count fp).bOk = 0 ↔ (readsLeft fp : Int) < count) ∧
      ((readArray count fp).bOk = 1 ↔ count ≤ (readsLeft fp : Int)) ∧
      ((readArray count fp).bOk = 1 → (readArray count fp).array.length = count.toNat) := by
  obtain ⟨h1, h2, h3⟩ := readArrayFor_bOk count.toNat fp.length [] fp (Nat.le_refl _)
  simp only [readArray, readsLeft]
  refine ⟨by rw [h1]; omega, by rw [h2]; omega, fun h => ?_⟩
  rw [h3 h]
  simp

/-! ## The claims about `readArray` and the header -/

/-- C4: for every source that holds `n` lines of text (no NUL byte, at most 127
bytes with the newline) followed by anything, `readArray` with `count = n`
returns 1 and fills the slots 0 to n-1, slot `i` holding line `i` without its
newline and otherwise byte for byte; what follows line `n` stays unread.  A last
line that the end of the file terminates is read the same way. -/
theorem readArray_reads_lines (lines : List Str) (rest : List Nat)
    (hl : ∀ l ∈ lines, TextLine l) :
    readArray lines.length (joinLines lines ++ rest) = ⟨1, lines, rest⟩ ∧
      (readArray lines.length (joinLines lines ++ rest)).array.length = lines.length ∧
      (∀ last : Str, last ≠ [] → 0 ∉ last → 10 ∉ last → last.length ≤ 127 →
        readArray (lines.length + 1 : Nat) (joinLines lines ++ last) =
          ⟨1, lines ++ [last], []⟩) := by
  refine ⟨readArray_joinLines lines rest hl, by rw [readArray_joinLines lines rest hl], ?_⟩
  intro last hne h0 hnl hlen
  have h := readArrayFor_lines lines 1 [] last hl
  simp only [readArray, Int.toNat_ofNat, h, List.nil_append]
  cases last with
  | nil => exact absurd rfl hne
  | cons c t =>
    have hf : fgets 128 (c :: t) = some (c :: t, []) := by
      simp only [fgets, Nat.add_one_sub_one]
      rw [fgetsAux_unterminated 127 (c :: t) hnl hlen]
    simp only [readArrayFor, hf, stripNewline_unterminated (c :: t) h0 hnl]

/-- Witness of C4: two lines with leading and trailing blanks and a carriage
return, followed by a third line. -/
theorem readArray_reads_lines_witness :
    (∀ l ∈ [bytes " a\r", bytes "b "], TextLine l) ∧
      readArray 2 (bytes " a\r\nb \nzzz\n") = ⟨1, [bytes " a\r", bytes "b "], bytes "zzz\n"⟩ :=
  ⟨by decide,
    (readArray_reads_lines [bytes " a\r", bytes "b "] (bytes "zzz\n") (by decide)).1⟩

/-- C5: when the source is exhausted before `n` lines have been read (`n > 0`
declared), `readArray` returns 0, and `main`, having read `n` from the header
and allocated the array, exits with status 5, the output file untouched and
neither `sortArray` nor `writeArray` called; so it is for a text of fewer than
`n` lines, as the header 5 followed by 3 lines. -/
theorem readArray_insufficient (n : Int) (fp : List Nat) (hn : 0 < n)
    (hshort : (readsLeft fp : Int) < n) :
    (readArray n fp).bOk = 0 ∧
      (∀ (w : World) (content inputLine : List Nat), w.input = some content →
        fgets 128 content = some (inputLine, fp) → headerCount inputLine = n →
        callocData w.heap n = true →
        ∃ e, main 3 w = some e ∧ e.status = 5 ∧ e.output = FileEffect.unchanged ∧
          Event.sortArray ∉ e.events ∧ Event.writeArray ∉ e.events) ∧
      (∀ lines : List Str, (∀ l ∈ lines, TextLine l) → (lines.length : Int) < n →
        (readArray n (joinLines lines)).bOk = 0) ∧
      main 3 ⟨some (bytes "5\na\nb\nc\n"), true, 4096⟩ =
        some ⟨5, .unchanged, [.fopenInput, .calloc, .readArray, .fcloseInput, .freeData]⟩ := by
  have hb : (readArray n fp).bOk = 0 := (readArray_bOk n fp).1.2 hshort
  refine ⟨hb, ?_, ?_, by decide⟩
  · intro w content inputLine hin hfg hcount hcal
    have hn0 : ¬ n = 0 := by omega
    refine ⟨⟨5, .unchanged, [.fopenInput, .calloc, .readArray, .fcloseInput, .freeData]⟩,
      ?_, rfl, rfl, by decide, by decide⟩
    simp [main, hin, hfg, hcount, hn0, hb, hcal]
  · intro lines hl hlt
    have hms : n.toNat = lines.length + (n.toNat - lines.length - 1) + 1 := by omega
    have h := readArrayFor_lines lines (n.toNat - lines.length - 1 + 1) [] [] hl
    simp only [List.append_nil, List.nil_append] at h
    rw [readArray, hms, Nat.add_assoc, h]
    simp [readArrayFor, fgets]

/-- Witness of C5: five lines asked from a stream of three. -/
theorem readArray_insufficient_witness :
    (0 : Int) < 5 ∧ (readsLeft (bytes "a\nb\nc\n") : Int) < 5 ∧
      (readArray 5 (bytes "a\nb\nc\n")).bOk = 0 :=
  ⟨by decide, by decide,
    (readArray_insufficient 5 (bytes "a\nb\nc\n") (by decide) (by decide)).1⟩

/-- C6: for every first line of the input, `main` exits with status 3 at the
header check if and only if `sscanf` finds no decimal integer in the line or the
value it stores in `count` is zero; the header `abc` is rejected this way. -/
theorem header_check_status (w : World) (content inputLine rest : List Nat)
    (hin : w.input = some content) (hfg : fgets 128 content = some (inputLine, rest)) :
    ((∃ e, main 3 w = some e ∧ e.status = 3) ↔
        (sscanf_d (cstr inputLine) = none ∨ sscanf_d (cstr inputLine) = some 0)) ∧
      (sscanf_d (cstr inputLine) = none ∨ sscanf_d (cstr inputLine) = some 0 →
        main 3 w = some ⟨3, .unchanged, [.fopenInput]⟩) ∧
      (∀ (w' : World) (more : List Nat), w'.input = some (bytes "abc\n" ++ more) →
        main 3 w' = some ⟨3, .unchanged, [.fopenInput]⟩) := by
  have hcnt : headerCount inputLine = 0 ↔
      (sscanf_d (cstr inputLine) = none ∨ sscanf_d (cstr inputLine) = some 0) := by
    unfold headerCount
    cases sscanf_d (cstr inputLine) <;> simp
  have hrej : headerCount inputLine = 0 → main 3 w = some ⟨3, .unchanged, [.fopenInput]⟩ := by
    intro h0
    simp [main, hin, hfg, h0]
  refine ⟨⟨?_, fun h => ⟨_, hrej (hcnt.2 h), rfl⟩⟩, fun h => hrej (hcnt.2 h), ?_⟩
  · rintro ⟨e, he, hs⟩
    rw [← hcnt]
    by_contra hne
    simp only [main, hin, hfg, hne, if_false, ne_eq, not_true_eq_false] at he
    split at he
    · cases he; simp at hs
    · split at he
      · cases he; simp at hs
      · split at he
        · cases he
        · split at he
          · cases he
          · cases he; simp at hs
  · intro w' more hin'
    have hfg' : fgets 128 (bytes "abc\n" ++ more) = some (bytes "abc\n", more) :=
      fgets_line (bytes "abc") more (by decide) (by decide)
    have h0 : headerCount (bytes "abc\n") = 0 := by decide
    simp [main, hin', hfg', h0]

/-- Witness of C6: the header `0` of a file that opens. -/
theorem header_check_status_witness :
    (∃ e, main 3 ⟨some (bytes "0\nx\n"), true, 4096⟩ = some e ∧ e.status = 3) ↔
      (sscanf_d (cstr (bytes "0\n")) = none ∨ sscanf_d (cstr (bytes "0\n")) = some 0) :=
  (header_check_status ⟨some (bytes "0\nx\n"), true, 4096⟩ (bytes "0\nx\n") (bytes "0\n")
    (bytes "x\n") rfl (by decide)).1

/-! ## Properties of `fprintf`, `sscanf` and `writeArray` -/

/-- The function `decimalAux` puts in front of `acc` a non-empty run of digits whose value
is `n`. -/
theorem decimalAux_spec (fuel n : Nat) (acc : List Nat) (h : n < fuel) :
    ∃ ds, decimalAux fuel n acc = ds ++ acc ∧ ds ≠ [] ∧ (∀ d ∈ ds, isdigit d = true) ∧
      ∀ v, ds.foldl (fun a d => 10 * a + (d - 48)) v = v * 10 ^ ds.length + n := by
  induction fuel generalizing n acc with
  | zero => omega
  | succ fuel ih =>
    unfold decimalAux
    split
    · rename_i hlt
      refine ⟨[48 + n], rfl, by simp, ?_, ?_⟩
      · intro d hd
        simp only [List.mem_singleton] at hd
        subst hd
        simp only [isdigit, Bool.and_eq_true, decide_eq_true_eq]
        omega
      · intro v
        simp only [List.foldl_cons, List.foldl_nil, List.length_singleton, pow_one]
        omega
    · rename_i hge
      obtain ⟨ds, h1, h2, h3, h4⟩ := ih (n / 10) ((48 + n % 10) :: acc) (by omega)
      refine ⟨ds ++ [48 + n % 10], by simp [h1], by simp, ?_, ?_⟩
      · intro d hd
        simp only [List.mem_append, List.mem_singleton] at hd
        rcases hd with hd | hd
        · exact h3 d hd
        · subst hd
          simp only [isdigit, Bool.and_eq_true, decide_eq_true_eq]
          omega
      · intro v
        simp only [List.foldl_append, List.foldl_cons, List.foldl_nil, h4,
          List.length_append, List.length_singleton, pow_succ]
        have := Nat.div_add_mod n 10
        have e : 48 + n % 10 - 48 = n % 10 := by omega
        rw [e]
        nlinarith [this]

/-- The text `%d` prints for a natural number: a non-empty run of digits whose
value is the number. -/
theorem fmt_d_nat (n : Nat) :
    fmt_d (n : Int) ≠ [] ∧ (∀ d ∈ fmt_d (n : Int), isdigit d = true) ∧
      digitsValue (fmt_d (n : Int)) = n := by
  obtain ⟨ds, h1, h2, h3, h4⟩ := decimalAux_spec (n + 1) n [] (by omega)
  have hf : fmt_d (n : Int) = ds := by
    simp only [fmt_d, Int.natAbs_ofNat, h1, List.append_nil]
    rw [if_neg (by omega)]
  rw [hf]
  refine ⟨h2, h3, ?_⟩
  have := h4 0
  simpa [digitsValue] using this

/-- A digit is neither white space, nor a sign, nor NUL, nor a newline. -/
theorem isdigit_facts (d : Nat) (h : isdigit d = true) :
    isspace d = false ∧ d ≠ 45 ∧ d ≠ 43 ∧ d ≠ 0 ∧ d ≠ 10 := by
  simp only [isdigit, Bool.and_eq_true, decide_eq_true_eq] at h
  refine ⟨?_, by omega, by omega, by omega, by omega⟩
  simp only [isspace, Bool.or_eq_false_iff, decide_eq_false_iff_not, Bool.and_eq_false_imp,
    decide_eq_true_eq]
  omega

/-- The conversion `%d` of `sscanf` reads back a run of digits that a non-digit follows. -/
theorem sscanf_d_digits (ds tail : List Nat) (hne : ds ≠ [])
    (hd : ∀ d ∈ ds, isdigit d = true) (ht : tail.head?.all (fun c => !isdigit c) = true) :
    sscanf_d (ds ++ tail) = some (toInt32 (digitsValue ds)) := by
  cases ds with
  | nil => exact absurd rfl hne
  | cons d ds =>
    obtain ⟨h1, h2, h3, _, _⟩ := isdigit_facts d (hd d (by simp))
    have hdrop : List.dropWhile isspace (d :: ds ++ tail) = d :: ds ++ tail := by
      simp [List.dropWhile, h1]
    have hsign : scanSign (d :: ds ++ tail) = (false, d :: ds ++ tail) := by
      simp only [List.cons_append, scanSign]
      split
      · rename_i heq; simp at heq; omega
      · rename_i heq; simp at heq; omega
      · rfl
    have htake : List.takeWhile isdigit (d :: ds ++ tail) = d :: ds := by
      rw [List.takeWhile_append_of_pos (fun x hx => hd x hx)]
      cases tail with
      | nil => simp
      | cons c t =>
        simp only [List.head?_cons, Option.all_some, Bool.not_eq_true'] at ht
        simp [List.takeWhile, ht]
    simp only [sscanf_d, hdrop, hsign, htake]
    simp

/-- The header line `writeArray` prints is read back by `main` as the same
count. -/
theorem headerCount_fmt_d (n : Nat) (hn : n < 2 ^ 31) :
    headerCount (fmt_d (n : Int) ++ [32, 10]) = n := by
  obtain ⟨h1, h2, h3⟩ := fmt_d_nat n
  have h0 : 0 ∉ fmt_d (n : Int) ++ [32, 10] := by
    intro hmem
    simp only [List.mem_append, List.mem_cons, List.mem_singleton, OfNat.zero_ne_ofNat,
      or_self, List.not_mem_nil, or_false] at hmem
    exact (isdigit_facts 0 (h2 0 hmem)).2.2.2.1 rfl
  have hs := sscanf_d_digits (fmt_d (n : Int)) [32, 10] h1 h2 (by decide)
  simp only [headerCount, cstr_of_no_nul _ h0, hs, h3, toInt32]
  omega

/-- The number of digits `decimalAux` prints: `10 ^ digits ≤ 10 * n` for `n > 0`. -/
theorem decimalAux_length (fuel n : Nat) (acc : List Nat) (h : n < fuel) (hn : 0 < n) :
    10 ^ (decimalAux fuel n acc).length ≤ 10 ^ acc.length * (10 * n) := by
  induction fuel generalizing n acc with
  | zero => omega
  | succ fuel ih =>
    unfold decimalAux
    split
    · simp only [List.length_cons, pow_succ]
      nlinarith [pow_pos (show (0 : Nat) < 10 by omega) acc.length]
    · have h1 := ih (n / 10) ((48 + n % 10) :: acc) (by omega) (by omega)
      simp only [List.length_cons, pow_succ] at h1
      have h2 : 10 * (n / 10) ≤ n := Nat.mul_div_le n 10
      have h3 : 0 < 10 ^ acc.length := pow_pos (show (0 : Nat) < 10 by omega) _
      calc 10 ^ (decimalAux fuel (n / 10) ((48 + n % 10) :: acc)).length
          ≤ 10 ^ acc.length * 10 * (10 * (n / 10)) := h1
        _ = 10 ^ acc.length * (10 * (10 * (n / 10))) := by ring
        _ ≤ 10 ^ acc.length * (10 * n) :=
            Nat.mul_le_mul_left _ (Nat.mul_le_mul_left _ h2)

/-- An `int` is printed with at most ten digits. -/
theorem fmt_d_length (n : Nat) (hn : n < 2 ^ 31) : (fmt_d (n : Int)).length ≤ 10 := by
  have hf : fmt_d (n : Int) = decimalAux (n + 1) n [] := by
    simp only [fmt_d, Int.natAbs_ofNat]
    rw [if_neg (by omega)]
  rw [hf]
  rcases Nat.eq_zero_or_pos n with h0 | hpos
  · subst h0; decide
  · have h := decimalAux_length (n + 1) n [] (by omega) hpos
    simp only [List.length_nil, pow_zero, one_mul] at h
    by_contra hgt
    have h11 : 10 ^ 11 ≤ 10 ^ (decimalAux (n + 1) n []).length :=
      Nat.pow_le_pow_right (by omega) (by omega)
    have : 10 * n < 10 ^ 11 := by
      have : (2 : Nat) ^ 31 = 2147483648 := by norm_num
      have : (10 : Nat) ^ 11 = 100000000000 := by norm_num
      omega
    omega

/-- The header line `writeArray` prints is one line for `fgets`. -/
theorem fgets_fmt_d (n : Nat) (hn : n < 2 ^ 31) (rest : List Nat) :
    fgets 128 (fmt_d (n : Int) ++ 32 :: 10 :: rest) =
      some (fmt_d (n : Int) ++ [32, 10], rest) := by
  obtain ⟨_, h2, _⟩ := fmt_d_nat n
  have hlen := fmt_d_length n hn
  have hnl : 10 ∉ fmt_d (n : Int) ++ [32] := by
    intro hmem
    simp only [List.mem_append, List.mem_singleton] at hmem
    rcases hmem with hmem | hmem
    · exact (isdigit_facts 10 (h2 10 hmem)).2.2.2.2 rfl
    · omega
  have h := fgets_line (fmt_d (n : Int) ++ [32]) rest hnl
    (by simp only [List.length_append, List.length_singleton]; omega)
  simpa using h

/-- The loop of `writeArray` prints the slots from `i` on, a newline after each. -/
theorem writeArrayFor_eq (n i : Nat) (array : List Str) (h : i + n = array.length) :
    writeArrayFor n i array = some (joinLines (array.drop i)) := by
  induction n generalizing i with
  | zero =>
    have : array.drop i = [] := List.drop_eq_nil_of_le (by omega)
    simp [writeArrayFor, this, joinLines]
  | succ n ih =>
    have hi : i < array.length := by omega
    simp only [writeArrayFor, List.getElem?_eq_getElem hi, ih (i + 1) (by omega)]
    rw [List.drop_eq_getElem_cons hi]
    simp [joinLines]

/-- Number of newlines in a text of lines that hold none themselves. -/
theorem count_newline_joinLines (lines : List Str) (h : ∀ l ∈ lines, 10 ∉ l) :
    (joinLines lines).count 10 = lines.length := by
  induction lines with
  | nil => simp [joinLines]
  | cons l ls ih =>
    have h1 : l.count 10 = 0 := List.count_eq_zero.2 (h l (by simp))
    simp [joinLines, List.count_append, h1, ih (fun x hx => h x (by simp [hx]))]

/-- A text that ends with lines ends with a newline. -/
theorem getLast?_joinLines (lines : List Str) (pre : List Nat) :
    (pre ++ 10 :: joinLines lines).getLast? = some 10 := by
  induction lines generalizing pre with
  | nil => simp [joinLines]
  | cons l ls ih =>
    have h := ih (pre ++ 10 :: l)
    simpa [joinLines] using h

/-- What `writeArray` writes for an array of `count` slots. -/
theorem writeArray_eq (array : List Str) (count : Int) (opens : Bool)
    (h : count = array.length) :
    writeArray array count opens =
      some (if opens then .written (fmt_d count ++ 32 :: 10 :: joinLines array)
        else .unchanged) := by
  subst h
  have h := writeArrayFor_eq array.length 0 array (by omega)
  simp only [List.drop_zero] at h
  cases opens <;> simp [writeArray, h]

/-! ## The claim about `writeArray` -/

/-- C7: for every record set of `count` strings and a destination that opens,
`writeArray` writes the decimal digits of `count` (their value is `count`
exactly), a blank and a newline, then the `count` strings in order, each as it
is and followed by one newline; when no string holds a newline the text has
`count + 1` newlines, the last byte being one of them. -/
theorem writeArray_format (array : List Str) :
    writeArray array array.length true =
        some (.written (fmt_d array.length ++ 32 :: 10 :: joinLines array)) ∧
      (fmt_d (array.length : Int) ≠ [] ∧
        (∀ d ∈ fmt_d (array.length : Int), isdigit d = true) ∧
        digitsValue (fmt_d (array.length : Int)) = array.length) ∧
      ((∀ s ∈ array, 10 ∉ s) →
        (fmt_d array.length ++ 32 :: 10 :: joinLines array).count 10 = array.length + 1 ∧
        (fmt_d array.length ++ 32 :: 10 :: joinLines array).getLast? = some 10) := by
  obtain ⟨h1, h2, h3⟩ := fmt_d_nat array.length
  refine ⟨?_, ⟨h1, h2, h3⟩, fun hnl => ⟨?_, ?_⟩⟩
  · rw [writeArray_eq array _ true rfl]
    rfl
  · have hc : (fmt_d (array.length : Int)).count 10 = 0 :=
      List.count_eq_zero.2 (fun hmem => (isdigit_facts 10 (h2 10 hmem)).2.2.2.2 rfl)
    simp [List.count_append, hc, List.count_cons, count_newline_joinLines array hnl]
  · have h := getLast?_joinLines array (fmt_d (array.length : Int) ++ [32])
    simpa using h

/-! ## Properties of `main` -/

/-- The value `sscanf` leaves in `count` is an `int`. -/
theorem headerCount_range (inputLine : List Nat) :
    -(2 ^ 31) ≤ headerCount inputLine ∧ headerCount inputLine < 2 ^ 31 := by
  unfold headerCount
  cases h : sscanf_d (cstr inputLine) with
  | none => simp
  | some v =>
    simp only [sscanf_d] at h
    split at h
    · cases h
    · simp only [Option.some.injEq] at h
      subst h
      simp only [toInt32]
      omega

/-- The call `calloc(count, 8)` succeeds only for a positive `count`. -/
theorem calloc_pos (heap : Nat) (count : Int) (hr : -(2 ^ 31) ≤ count ∧ count < 2 ^ 31)
    (h0 : count ≠ 0) (hc : callocData heap count = true) : 0 < count := by
  simp only [callocData, calloc, Bool.and_eq_true, decide_eq_true_eq] at hc
  omega

/-- The function `readArray` returns 0 or 1. -/
theorem readArray_bOk_cases (count : Int) (fp : List Nat) :
    (readArray count fp).bOk = 0 ∨ (readArray count fp).bOk = 1 := by
  obtain ⟨h1, h2, _⟩ := readArray_bOk count fp
  rcases Int.lt_or_le (readsLeft fp : Int) count with h | h
  · exact Or.inl (h1.2 h)
  · exact Or.inr (h2.2 h)

/-- The run of `main` once the header is accepted, the array allocated and the
lines read: the array is sorted, written when the output file opens, and the
exit status is 0 either way. -/
theorem main_success (w : World) (content inputLine rest : List Nat)
    (hin : w.input = some content) (hfg : fgets 128 content = some (inputLine, rest))
    (h0 : headerCount inputLine ≠ 0)
    (hcal : callocData w.heap (headerCount inputLine) = true)
    (hread : (readArray (headerCount inputLine) rest).bOk = 1) :
    ∃ sorted, sortArray (readArray (headerCount inputLine) rest).array
        (headerCount inputLine) = some sorted ∧
      sorted.array.Perm (readArray (headerCount inputLine) rest).array ∧
      AdjSorted sorted.array 0 sorted.array.length ∧
      main 3 w = some ⟨0,
        if w.outputOpens then
          .written (fmt_d (headerCount inputLine) ++ 32 :: 10 :: joinLines sorted.array)
        else .unchanged,
        [.fopenInput, .calloc, .readArray, .fcloseInput, .sortArray, .writeArray,
          .freeData]⟩ := by
  have hpos := calloc_pos w.heap _ (headerCount_range inputLine) h0 hcal
  have hlen := (readArray_bOk (headerCount inputLine) rest).2.2 hread
  have hcount : headerCount inputLine =
      ((readArray (headerCount inputLine) rest).array.length : Int) := by
    rw [hlen]; omega
  obtain ⟨sorted, hs, hp, hadj⟩ := sortArray_spec (readArray (headerCount inputLine) rest).array
  rw [← hcount] at hs
  have hl2 := hp.length_eq
  refine ⟨sorted, hs, hp, by rw [hl2]; exact hadj, ?_⟩
  have hw := writeArray_eq sorted.array (headerCount inputLine) w.outputOpens
    (by rw [hl2]; exact hcount)
  have hb : ¬ (readArray (headerCount inputLine) rest).bOk = 0 := by rw [hread]; decide
  simp only [main, ne_eq, not_true_eq_false, if_false, hin, hfg, h0, hcal, hb, hs, hw]
  rfl

/-- The call `calloc(count, 8)` succeeds when `8 * count` bytes are available. -/
theorem calloc_of_heap (heap n : Nat) (hn : n < 2 ^ 31) (hheap : 8 * n ≤ heap) :
    callocData heap (n : Int) = true := by
  simp only [callocData, calloc, Bool.and_eq_true, decide_eq_true_eq]
  omega

/-- The run of `main` on a well-formed input: a header line that declares the
number of lines, then these lines, then anything. -/
theorem main_wellformed (w : World) (hdr : List Nat) (lines : List Str) (rest : List Nat)
    (hin : w.input = some (hdr ++ 10 :: (joinLines lines ++ rest)))
    (hh : 10 ∉ hdr ∧ hdr.length + 1 ≤ 127)
    (hcount : headerCount (hdr ++ [10]) = lines.length)
    (hpos : 0 < lines.length) (hl : ∀ l ∈ lines, TextLine l)
    (hheap : 8 * lines.length ≤ w.heap) :
    ∃ sorted, sortArray lines lines.length = some sorted ∧ sorted.array.Perm lines ∧
      AdjSorted sorted.array 0 sorted.array.length ∧
      main 3 w = some ⟨0,
        if w.outputOpens then
          .written (fmt_d lines.length ++ 32 :: 10 :: joinLines sorted.array)
        else .unchanged,
        [.fopenInput, .calloc, .readArray, .fcloseInput, .sortArray, .writeArray,
          .freeData]⟩ := by
  have hfg := fgets_line hdr (joinLines lines ++ rest) hh.1 hh.2
  have hr := headerCount_range (hdr ++ [10])
  rw [hcount] at hr
  have hn : lines.length < 2 ^ 31 := by omega
  have hrd := readArray_joinLines lines rest hl
  have h := main_success w _ _ _ hin hfg (by rw [hcount]; omega)
    (by rw [hcount]; exact calloc_of_heap _ _ hn hheap) (by rw [hcount, hrd])
  simpa only [hcount, hrd] using h

/-- Scenario A: the run of `main` on the lines `3`, `banana`, `apple`, `cherry`. -/
theorem main_scenarioA :
    main 3 ⟨some (bytes "3\nbanana\napple\ncherry\n"), true, 4096⟩ =
      some ⟨0, .written (bytes "3 \napple\nbanana\ncherry\n"),
        [.fopenInput, .calloc, .readArray, .fcloseInput, .sortArray, .writeArray,
          .freeData]⟩ := by
  obtain ⟨sorted, hs, _, _, hm⟩ := main_wellformed
    ⟨some (bytes "3\nbanana\napple\ncherry\n"), true, 4096⟩ (bytes "3")
    [bytes "banana", bytes "apple", bytes "cherry"] [] rfl (by decide) (by decide)
    (by decide) (by decide) (by decide)
  have he : sortArray [bytes "banana", bytes "apple", bytes "cherry"] 3 =
      some ⟨[bytes "apple", bytes "banana", bytes "cherry"], 0, 2, 4, 1⟩ :=
    sortArrayWhile_of_iter 3 _ _ _ (by decide)
  have hs' : some sorted = some ⟨[bytes "apple", bytes "banana", bytes "cherry"], 0, 2, 4, 1⟩ := by
    rw [← hs]; exact he
  cases hs'
  rw [hm]
  decide

/-! ## The claims about the whole run -/

/-- C3, as the code has it: on a well-formed input (a header line declaring
`n > 0`, then at least `n` lines of text that fit the line buffer) `main` writes
the digits of `n`, a blank and a newline, then exactly `n` lines, which are the
first `n` data lines rearranged in non-decreasing byte-wise order; the input lines
`3`, `banana`, `apple`, `cherry` give the output lines `3` followed by a blank,
`apple`, `banana`, `cherry`. -/
theorem main_sorts_lines (w : World) (hdr : List Nat) (lines : List Str) (rest : List Nat)
    (hin : w.input = some (hdr ++ 10 :: (joinLines lines ++ rest)))
    (hh : 10 ∉ hdr ∧ hdr.length + 1 ≤ 127)
    (hcount : headerCount (hdr ++ [10]) = lines.length)
    (hpos : 0 < lines.length) (hl : ∀ l ∈ lines, TextLine l)
    (hheap : 8 * lines.length ≤ w.heap) (hout : w.outputOpens = true) :
    (∃ sorted : List Str, sorted.Perm lines ∧ sorted.length = lines.length ∧
      (∀ (i : Nat) (h : i + 1 < sorted.length),
        strcmp (sorted.get ⟨i, Nat.lt_of_succ_lt h⟩) (sorted.get ⟨i + 1, h⟩) ≤ 0) ∧
      main 3 w = some ⟨0, .written (fmt_d lines.length ++ 32 :: 10 :: joinLines sorted),
        [.fopenInput, .calloc, .readArray, .fcloseInput, .sortArray, .writeArray,
          .freeData]⟩) ∧
      main 3 ⟨some (joinLines [bytes "3", bytes "banana", bytes "apple", bytes "cherry"]),
          true, 4096⟩ =
        some ⟨0, .written (joinLines [bytes "3 ", bytes "apple", bytes "banana", bytes "cherry"]),
          [.fopenInput, .calloc, .readArray, .fcloseInput, .sortArray, .writeArray,
            .freeData]⟩ := by
  obtain ⟨sorted, _, hp, hadj, hm⟩ := main_wellformed w hdr lines rest hin hh hcount hpos hl hheap
  refine ⟨⟨sorted.array, hp, hp.length_eq, ?_, ?_⟩, main_scenarioA⟩
  · intro i h
    exact hadj i (Nat.zero_le i) (by omega) _ _
      (List.getElem?_eq_getElem (Nat.lt_of_succ_lt h)) (List.getElem?_eq_getElem h)
  · rw [hm, hout]
    rfl

/-- Witness of C3: the header 2 and the lines `b`, `a`, then a line more. -/
theorem main_sorts_lines_witness :
    ∃ sorted : List Str, sorted.Perm [bytes "b", bytes "a"] ∧
      main 3 ⟨some (bytes "2\nb\na\nzz\n"), true, 64⟩ =
        some ⟨0, .written (fmt_d 2 ++ 32 :: 10 :: joinLines sorted),
          [.fopenInput, .calloc, .readArray, .fcloseInput, .sortArray, .writeArray,
            .freeData]⟩ := by
  obtain ⟨sorted, h1, _, _, h4⟩ := (main_sorts_lines ⟨some (bytes "2\nb\na\nzz\n"), true, 64⟩
    (bytes "2") [bytes "b", bytes "a"] (bytes "zz\n") rfl (by decide) (by decide) (by decide)
    (by decide) (by decide) rfl).1
  exact ⟨sorted, h1, h4⟩

/-- Counterexample to C3 as stated: on the input lines `3`, `banana`, `apple`,
`cherry` the first output line is `3` followed by a blank, so the output is not
the lines `3`, `apple`, `banana`, `cherry`. -/
theorem main_scenarioA_header_has_blank :
    main 3 ⟨some (joinLines [bytes "3", bytes "banana", bytes "apple", bytes "cherry"]),
        true, 4096⟩ =
      some ⟨0, .written (bytes "3 \napple\nbanana\ncherry\n"),
        [.fopenInput, .calloc, .readArray, .fcloseInput, .sortArray, .writeArray,
          .freeData]⟩ ∧
      bytes "3 \napple\nbanana\ncherry\n" ≠
        joinLines [bytes "3", bytes "apple", bytes "banana", bytes "cherry"] :=
  ⟨main_scenarioA, by decide⟩

/-- The file `writeArray` writes for `n` lines of text loads as these lines. -/
theorem written_loadsAs (data : List Str) (hn : data.length < 2 ^ 31)
    (hl : ∀ l ∈ data, TextLine l) :
    LoadsAs (fmt_d data.length ++ 32 :: 10 :: joinLines data) data.length data := by
  refine ⟨fmt_d data.length ++ [32, 10], joinLines data, fgets_fmt_d _ hn _,
    headerCount_fmt_d _ hn, ?_⟩
  have h := readArray_joinLines data [] hl
  simpa using h

/-- C8: round trip, write after read.  For a well-formed file (a header line
declaring `n > 0`, then `n` lines of text ended by newlines that fit the line
buffer) the load gives `n` and the lines; the file written from the loaded
array, sorted or not, loads again with the same count `n` and with data lines
that are a permutation of the lines of the file. -/
theorem write_read_roundtrip (hdr : List Nat) (lines : List Str)
    (hh : 10 ∉ hdr ∧ hdr.length + 1 ≤ 127)
    (hcount : headerCount (hdr ++ [10]) = lines.length)
    (hpos : 0 < lines.length) (hl : ∀ l ∈ lines, TextLine l) :
    LoadsAs (hdr ++ 10 :: joinLines lines) lines.length lines ∧
      (∃ out, writeArray lines lines.length true = some (.written out) ∧
        LoadsAs out lines.length lines) ∧
      (∃ sorted out data, sortArray lines lines.length = some sorted ∧
        writeArray sorted.array lines.length true = some (.written out) ∧
        LoadsAs out lines.length data ∧ data.Perm lines) := by
  have hr := headerCount_range (hdr ++ [10])
  rw [hcount] at hr
  have hn : lines.length < 2 ^ 31 := by omega
  refine ⟨⟨hdr ++ [10], joinLines lines, fgets_line hdr _ hh.1 hh.2, hcount, ?_⟩, ?_, ?_⟩
  · have h := readArray_joinLines lines [] hl
    simpa using h
  · exact ⟨_, writeArray_eq lines _ true rfl, written_loadsAs lines hn hl⟩
  · obtain ⟨sorted, hs, hp, _⟩ := sortArray_spec lines
    have hlen : sorted.array.length = lines.length := hp.length_eq
    have hw := writeArray_eq sorted.array (lines.length : Int) true (by rw [hlen])
    have hload := written_loadsAs sorted.array (by omega)
      (fun l hm => hl l (hp.mem_iff.1 hm))
    rw [hlen] at hload
    exact ⟨sorted, _, sorted.array, hs, hw, hload, hp⟩

/-- Witness of C8: the file with the header 2 and the lines `b`, `a`. -/
theorem write_read_roundtrip_witness :
    LoadsAs (bytes "2\nb\na\n") 2 [bytes "b", bytes "a"] :=
  (write_read_roundtrip (bytes "2") [bytes "b", bytes "a"] (by decide) (by decide)
    (by decide) (by decide)).1

/-- An empty stream is the only one on which `fgets` returns NULL. -/
theorem fgets_eq_none (fp : List Nat) : fgets 128 fp = none ↔ fp = [] := by
  cases fp <;> simp [fgets]

/-- C9, as the code has it: `main` always exits, and its status is 1 exactly
when the argument count is not 3 or the input file does not open; 2 exactly when
the input opens and is empty; 3 exactly when the header gives `count = 0`; 4
exactly when the header is accepted and `calloc` fails; 5 exactly when the array
is allocated and fewer lines than declared can be read; 0 exactly when the lines
are read, whether or not the output file opens: with status 0 the output file
is written if it opens and left as it was if not. -/
theorem main_exit_status (argc : Int) (w : World) :
    ∃ e, main argc w = some e ∧
      (e.status = 1 ↔ (argc ≠ 3 ∨ w.input = none)) ∧
      (e.status = 2 ↔ (argc = 3 ∧ w.input = some [])) ∧
      (e.status = 3 ↔ (argc = 3 ∧ ∃ inputLine rest, headerOf w = some (inputLine, rest) ∧
        headerCount inputLine = 0)) ∧
      (e.status = 4 ↔ (argc = 3 ∧ ∃ inputLine rest, headerOf w = some (inputLine, rest) ∧
        headerCount inputLine ≠ 0 ∧
        callocData w.heap (headerCount inputLine) = false)) ∧
      (e.status = 5 ↔ (argc = 3 ∧ ∃ inputLine rest, headerOf w = some (inputLine, rest) ∧
        headerCount inputLine ≠ 0 ∧
        callocData w.heap (headerCount inputLine) = true ∧
        (readsLeft rest : Int) < headerCount inputLine)) ∧
      (e.status = 0 ↔ (argc = 3 ∧ ∃ inputLine rest, headerOf w = some (inputLine, rest) ∧
        headerCount inputLine ≠ 0 ∧
        callocData w.heap (headerCount inputLine) = true ∧
        headerCount inputLine ≤ (readsLeft rest : Int))) ∧
      (e.status = 0 → w.outputOpens = false → e.output = .unchanged) ∧
      (e.status = 0 → w.outputOpens = true → ∃ out, e.output = .written out) ∧
      (e.status ≠ 0 → e.output = .unchanged) := by
  by_cases ha : argc = 3
  swap
  · exact ⟨⟨1, .unchanged, []⟩, by simp [main, ha], by simp [ha]⟩
  subst ha
  cases hin : w.input with
  | none => exact ⟨⟨1, .unchanged, []⟩, by simp [main, hin], by simp [headerOf, hin]⟩
  | some content =>
    cases hfg : fgets 128 content with
    | none =>
      have hc := (fgets_eq_none content).1 hfg
      exact ⟨⟨2, .unchanged, [.fopenInput]⟩, by simp [main, hin, hfg],
        by simp [headerOf, hin, hfg, hc, fgets]⟩
    | some p =>
      obtain ⟨inputLine, rest⟩ := p
      have hne : content ≠ [] := fun e => by rw [(fgets_eq_none content).2 e] at hfg; cases hfg
      by_cases h0 : headerCount inputLine = 0
      · exact ⟨⟨3, .unchanged, [.fopenInput]⟩, by simp [main, hin, hfg, h0],
          by simp [headerOf, hin, hfg, h0, hne]⟩
      by_cases hcal : callocData w.heap (headerCount inputLine) = false
      · refine ⟨⟨4, .unchanged, [.fopenInput, .calloc]⟩, ?_, ?_⟩
        · simp only [main, ne_eq, not_true_eq_false, if_false, hin, hfg, h0, hcal, if_true]
        · simp [headerOf, hin, hfg, h0, hcal, hne]
      have hcal' : callocData w.heap (headerCount inputLine) = true := by
        simpa using hcal
      obtain ⟨hb0, hb1, _⟩ := readArray_bOk (headerCount inputLine) rest
      rcases readArray_bOk_cases (headerCount inputLine) rest with hb | hb
      · have hlt := hb0.1 hb
        have hnle : ¬ headerCount inputLine ≤ (readsLeft rest : Int) := by omega
        refine ⟨⟨5, .unchanged, [.fopenInput, .calloc, .readArray, .fcloseInput, .freeData]⟩,
          ?_, ?_⟩
        · simp only [main, ne_eq, not_true_eq_false, if_false, hin, hfg, h0, hcal', hb, if_true]
          rfl
        · simp [headerOf, hin, hfg, h0, hcal', hne, hlt, hnle]
          exact ⟨_, _, ⟨rfl, rfl⟩, h0, hcal', hlt⟩
      · have hle := hb1.1 hb
        have hnlt : ¬ (readsLeft rest : Int) < headerCount inputLine := by omega
        obtain ⟨sorted, _, _, _, hm⟩ := main_success w content inputLine rest hin hfg h0 hcal' hb
        refine ⟨_, hm, ?_⟩
        cases hout : w.outputOpens <;>
          simp [headerOf, hin, hfg, h0, hcal', hne, hle, hnlt] <;>
          exact ⟨_, _, ⟨rfl, rfl⟩, h0, hcal', hle⟩

/-- Counterexample to C9 as stated: with three arguments, an input that opens
and holds `1`, `x`, and an output file that does not open, `main` exits with
status 0 although nothing was written; and with three arguments and an input
file that does not open it exits with status 1. -/
theorem main_status_other_conditions :
    main 3 ⟨some (bytes "1\nx\n"), false, 4096⟩ =
        some ⟨0, .unchanged,
          [.fopenInput, .calloc, .readArray, .fcloseInput, .sortArray, .writeArray,
            .freeData]⟩ ∧
      main 3 ⟨none, true, 4096⟩ = some ⟨1, .unchanged, []⟩ := by
  refine ⟨?_, by decide⟩
  obtain ⟨sorted, _, _, _, hm⟩ := main_wellformed ⟨some (bytes "1\nx\n"), false, 4096⟩
    (bytes "1") [bytes "x"] [] rfl (by decide) (by decide) (by decide) (by decide) (by decide)
  rw [hm]
  rfl

/-! ## The paths of `main` -/

/-- The paths of `main`: the exit status and the calls made do not depend on
whether the output file opens; the output file is written only with status 0
and an output file that opens.  Each status comes with the calls of its path,
and the array is read only with a positive `count`. -/
theorem main_cases (argc : Int) (w : World) :
    ∃ (status : Int) (out : List Nat) (events : List Event),
      (∀ opens : Bool, main argc ⟨w.input, opens, w.heap⟩ =
        some ⟨status, if status = 0 ∧ opens = true then .written out else .unchanged,
          events⟩) ∧
      ((status = 1 ∧ events = [] ∧ (argc ≠ 3 ∨ w.input = none)) ∨
        (status = 2 ∧ events = [.fopenInput]) ∨
        (status = 3 ∧ events = [.fopenInput]) ∨
        (status = 4 ∧ events = [.fopenInput, .calloc]) ∨
        (status = 5 ∧
          events = [.fopenInput, .calloc, .readArray, .fcloseInput, .freeData] ∧
          ∃ inputLine rest, headerOf w = some (inputLine, rest) ∧
            0 < headerCount inputLine) ∨
        (status = 0 ∧
          events = [.fopenInput, .calloc, .readArray, .fcloseInput, .sortArray,
            .writeArray, .freeData] ∧
          ∃ inputLine rest, headerOf w = some (inputLine, rest) ∧
            0 < headerCount inputLine)) := by
  by_cases ha : argc = 3
  swap
  · exact ⟨1, [], [], fun opens => by simp [main, ha], Or.inl ⟨rfl, rfl, Or.inl ha⟩⟩
  subst ha
  cases hin : w.input with
  | none =>
    exact ⟨1, [], [], fun opens => by simp [main], Or.inl ⟨rfl, rfl, Or.inr rfl⟩⟩
  | some content =>
    cases hfg : fgets 128 content with
    | none =>
      exact ⟨2, [], _, fun opens => by simp [main, hfg], Or.inr (Or.inl ⟨rfl, rfl⟩)⟩
    | some p =>
      obtain ⟨inputLine, rest⟩ := p
      by_cases h0 : headerCount inputLine = 0
      · exact ⟨3, [], _, fun opens => by simp [main, hfg, h0],
          Or.inr (Or.inr (Or.inl ⟨rfl, rfl⟩))⟩
      by_cases hcal : callocData w.heap (headerCount inputLine) = false
      · refine ⟨4, [], _, fun opens => ?_, Or.inr (Or.inr (Or.inr (Or.inl ⟨rfl, rfl⟩)))⟩
        simp only [main, ne_eq, not_true_eq_false, if_false, hfg, h0, hcal, if_true]
        rfl
      have hcal' : callocData w.heap (headerCount inputLine) = true := by simpa using hcal
      have hpos := calloc_pos w.heap _ (headerCount_range inputLine) h0 hcal'
      have hhdr : headerOf w = some (inputLine, rest) := by simp [headerOf, hin, hfg]
      rcases readArray_bOk_cases (headerCount inputLine) rest with hb | hb
      · refine ⟨5, [], _, fun opens => ?_,
          Or.inr (Or.inr (Or.inr (Or.inr (Or.inl ⟨rfl, rfl, _, _, hhdr, hpos⟩))))⟩
        simp only [main, ne_eq, not_true_eq_false, if_false, hfg, h0, hcal', hb, if_true]
        rfl
      · obtain ⟨sorted, hs, _, _, hm⟩ := main_success ⟨some content, true, w.heap⟩ content
          inputLine rest rfl hfg h0 hcal' hb
        refine ⟨0, fmt_d (headerCount inputLine) ++ 32 :: 10 :: joinLines sorted.array, _,
          fun opens => ?_,
          Or.inr (Or.inr (Or.inr (Or.inr (Or.inr ⟨rfl, rfl, _, _, hhdr, hpos⟩))))⟩
        obtain ⟨sorted', hs', _, _, hm'⟩ := main_success ⟨some content, opens, w.heap⟩ content
          inputLine rest rfl hfg h0 hcal' hb
        have he : sorted' = sorted := by
          have := hs'.symm.trans hs
          exact Option.some.inj this
        subst he
        rw [hm']
        cases opens <;> simp

/-- The paths of `main` on a given world. -/
theorem main_cases_self (argc : Int) (w : World) :
    ∃ (status : Int) (out : List Nat) (events : List Event),
      main argc w =
        some ⟨status, if status = 0 ∧ w.outputOpens = true then .written out else .unchanged,
          events⟩ ∧
      ((status = 1 ∧ events = [] ∧ (argc ≠ 3 ∨ w.input = none)) ∨
        (status = 2 ∧ events = [.fopenInput]) ∨
        (status = 3 ∧ events = [.fopenInput]) ∨
        (status = 4 ∧ events = [.fopenInput, .calloc]) ∨
        (status = 5 ∧
          events = [.fopenInput, .calloc, .readArray, .fcloseInput, .freeData] ∧
          ∃ inputLine rest, headerOf w = some (inputLine, rest) ∧
            0 < headerCount inputLine) ∨
        (status = 0 ∧
          events = [.fopenInput, .calloc, .readArray, .fcloseInput, .sortArray,
            .writeArray, .freeData] ∧
          ∃ inputLine rest, headerOf w = some (inputLine, rest) ∧
            0 < headerCount inputLine)) := by
  obtain ⟨status, out, events, h, hc⟩ := main_cases argc w
  exact ⟨status, out, events, h w.outputOpens, hc⟩

/-! ## The claims about the header invariant, the exit paths and the handles -/

/-- C12, what the code does: the header check lets a negative count through.
The header `-5` leaves `count = -5`; `main` then calls `calloc` with it, which
fails, and exits with status 4, not 3.  What holds: `readArray`, `sortArray` and
`writeArray` are called only after a header with `count > 0`. -/
theorem header_accepts_negative_count :
    headerCount (bytes "-5\n") = -5 ∧
      main 3 ⟨some (bytes "-5\na\n"), true, 4096⟩ =
        some ⟨4, .unchanged, [.fopenInput, .calloc]⟩ ∧
      (∀ (argc : Int) (w : World) (e : Exit), main argc w = some e →
        (Event.readArray ∈ e.events ∨ Event.sortArray ∈ e.events ∨
          Event.writeArray ∈ e.events) →
        ∃ inputLine rest, headerOf w = some (inputLine, rest) ∧
          0 < headerCount inputLine) := by
  refine ⟨by decide, by decide, ?_⟩
  intro argc w e he hev
  obtain ⟨status, out, events, hm, hc⟩ := main_cases_self argc w
  rw [hm] at he
  cases he
  rcases hc with ⟨_, h, _⟩ | ⟨_, h⟩ | ⟨_, h⟩ | ⟨_, h⟩ | ⟨_, _, h⟩ | ⟨_, _, h⟩
  · simp [h] at hev
  · simp [h] at hev
  · simp [h] at hev
  · simp [h] at hev
  · exact h
  · exact h

/-- C13, as the code has it: when the input file cannot be opened `main` exits
with status 1, the status of a wrong argument count as well; whether the output
file opens changes neither the exit status nor the calls made, and when it does
not open the output file is left as it was. -/
theorem fopen_failure_status :
    (∀ (argc : Int) (w : World), w.input = none →
        main argc w = some ⟨1, .unchanged, []⟩) ∧
      (∀ (argc : Int) (w : World), argc ≠ 3 → main argc w = some ⟨1, .unchanged, []⟩) ∧
      (∀ (argc : Int) (w : World), ∃ e e', main argc ⟨w.input, true, w.heap⟩ = some e ∧
        main argc ⟨w.input, false, w.heap⟩ = some e' ∧ e'.status = e.status ∧
        e'.events = e.events ∧ e'.output = .unchanged) := by
  refine ⟨?_, ?_, ?_⟩
  · intro argc w hin
    by_cases ha : argc = 3 <;> simp [main, ha, hin]
  · intro argc w ha
    simp [main, ha]
  · intro argc w
    obtain ⟨status, out, events, hm, _⟩ := main_cases argc w
    exact ⟨_, _, hm true, hm false, rfl, rfl, by simp⟩

/-- Counterexample to C13 as stated: an input file that does not open gives
status 1, as a wrong argument count does; an output file that does not open
gives status 0. -/
theorem fopen_failure_status_shared :
    main 3 ⟨none, true, 4096⟩ = some ⟨1, .unchanged, []⟩ ∧
      main 2 ⟨some (bytes "1\nx\n"), true, 4096⟩ = some ⟨1, .unchanged, []⟩ ∧
      ∃ e, main 3 ⟨some (bytes "1\nx\n"), false, 4096⟩ = some e ∧ e.status = 0 := by
  refine ⟨by decide, by decide, ?_⟩
  obtain ⟨sorted, _, _, _, hm⟩ := main_wellformed ⟨some (bytes "1\nx\n"), false, 4096⟩
    (bytes "1") [bytes "x"] [] rfl (by decide) (by decide) (by decide) (by decide) (by decide)
  exact ⟨_, hm, rfl⟩

/-- C14: no partial output.  A run of `main` that ends with a status other than
0 (then 1, 2, 3, 4 or 5) has not called `writeArray`, and the output file is as
it was before the run. -/
theorem no_partial_output (argc : Int) (w : World) (e : Exit)
    (he : main argc w = some e) (hs : e.status ≠ 0) :
    Event.writeArray ∉ e.events ∧ e.output = .unchanged ∧
      (e.status = 1 ∨ e.status = 2 ∨ e.status = 3 ∨ e.status = 4 ∨ e.status = 5) := by
  obtain ⟨status, out, events, hm, hc⟩ := main_cases_self argc w
  rw [hm] at he
  cases he
  simp only at hs
  rcases hc with ⟨h1, h, _⟩ | ⟨h1, h⟩ | ⟨h1, h⟩ | ⟨h1, h⟩ | ⟨h1, h, _⟩ | ⟨h1, _, _⟩
  · simp [h, h1]
  · simp [h, h1]
  · simp [h, h1]
  · simp [h, h1]
  · simp [h, h1]
  · exact absurd h1 hs

/-- Witness of C14: the header 5 followed by three lines; the run ends with
status 5. -/
theorem no_partial_output_witness :
    Event.writeArray ∉
        [Event.fopenInput, Event.calloc, Event.readArray, Event.fcloseInput, Event.freeData] ∧
      FileEffect.unchanged = FileEffect.unchanged ∧
      ((5 : Int) = 1 ∨ (5 : Int) = 2 ∨ (5 : Int) = 3 ∨ (5 : Int) = 4 ∨ (5 : Int) = 5) :=
  no_partial_output 3 ⟨some (bytes "5\na\nb\nc\n"), true, 4096⟩
    ⟨5, .unchanged, [.fopenInput, .calloc, .readArray, .fcloseInput, .freeData]⟩
    (by decide) (by decide)

/-- C17, what the code does: the exits with status 2 (empty file), 3 (header
`abc`) and 4 (failed allocation) leave the input file open: `fclose` is not
among the calls made.  The exit with status 5 closes it first, and so does the
run that ends with status 0.  In general the input file has been closed exactly
on the paths with status 5 and 0. -/
theorem input_left_open_on_early_exits :
    main 3 ⟨some [], true, 4096⟩ = some ⟨2, .unchanged, [.fopenInput]⟩ ∧
      main 3 ⟨some (bytes "abc\nx\n"), true, 4096⟩ = some ⟨3, .unchanged, [.fopenInput]⟩ ∧
      main 3 ⟨some (bytes "2\nb\na\n"), true, 8⟩ =
        some ⟨4, .unchanged, [.fopenInput, .calloc]⟩ ∧
      main 3 ⟨some (bytes "5\na\nb\nc\n"), true, 4096⟩ =
        some ⟨5, .unchanged, [.fopenInput, .calloc, .readArray, .fcloseInput, .freeData]⟩ ∧
      (∀ (argc : Int) (w : World) (e : Exit), main argc w = some e →
        ((e.status = 2 ∨ e.status = 3 ∨ e.status = 4) →
          Event.fopenInput ∈ e.events ∧ Event.fcloseInput ∉ e.events) ∧
        ((e.status = 5 ∨ e.status = 0) → Event.fcloseInput ∈ e.events)) := by
  refine ⟨by decide, by decide, by decide, by decide, ?_⟩
  intro argc w e he
  obtain ⟨status, out, events, hm, hc⟩ := main_cases_self argc w
  rw [hm] at he
  cases he
  rcases hc with ⟨h1, h, _⟩ | ⟨h1, h⟩ | ⟨h1, h⟩ | ⟨h1, h⟩ | ⟨h1, h, _⟩ | ⟨h1, h, _⟩ <;>
    simp [h, h1]

/-! ## Termination and cost of `sortArray` -/

/-- The `while` loop makes at most as many passes as its termination measure,
and each pass makes `count - 1` comparisons. -/
theorem sortArrayWhile_passes (count : Int) (m : Nat) (st r : SortState)
    (hm : (if st.swapCount > 0 then inversions st.array + 1 else 0) ≤ m)
    (hr : sortArrayWhile count st = some r) :
    r.passes ≤ st.passes + m ∧ st.passes ≤ r.passes ∧
      r.comparisons = st.comparisons + (r.passes - st.passes) * (count - 1).toNat := by
  induction m generalizing st with
  | zero =>
    have h0 : ¬ st.swapCount > 0 := by
      intro hpos; rw [if_pos hpos] at hm; omega
    rw [sortArrayWhile_eq, if_neg h0] at hr
    cases hr
    simp
  | succ m ih =>
    rw [sortArrayWhile_eq] at hr
    by_cases hpos : st.swapCount > 0
    · rw [if_pos hpos] at hm hr
      cases hfs : sortArrayFor (count - 1).toNat 0 ⟨st.array, 0, 0⟩ with
      | none => rw [hfs] at hr; cases hr
      | some fs =>
        rw [hfs] at hr
        have hinv := sortArrayFor_inversions _ _ _ _ hfs
        obtain ⟨_, hcmp, _⟩ := sortArrayFor_spec _ _ _ _ hfs
        simp only at hinv hcmp hr
        obtain ⟨h1, h2, h3⟩ := ih _ (by simp only; split <;> omega) hr
        simp only at h1 h2 h3
        refine ⟨by omega, by omega, ?_⟩
        rw [h3, hcmp]
        have e : r.passes - st.passes = (r.passes - (st.passes + 1)) + 1 := by omega
        rw [e, Nat.add_mul]
        omega
    · rw [if_neg hpos] at hr
      cases hr
      simp

/-- C11: `sortArray` terminates on every array of every length: the call with
`count` the length returns, after at most one pass more than the array has
out-of-order pairs; for every pass of the `for` loop that swaps, the number of
out-of-order pairs after it is strictly below the number before it, which is
the measure of the well-founded recursion of the `while` loop. -/
theorem sortArray_terminates (R : List Str) :
    (∃ r, sortArray R R.length = some r ∧ r.passes ≤ inversions R + 1) ∧
      (∀ (n i : Nat) (st st' : ForState), sortArrayFor n i st = some st' →
        st.swapCount < st'.swapCount → inversions st'.array < inversions st.array) ∧
      (∀ (n i : Nat) (st st' : ForState), sortArrayFor n i st = some st' →
        inversions st'.array + (st'.swapCount - st.swapCount) = inversions st.array) := by
  refine ⟨?_, ?_, ?_⟩
  · obtain ⟨r, hr, _⟩ := sortArray_spec R
    have h := sortArrayWhile_passes (R.length : Int) (inversions R + 1) ⟨R, 1, 0, 0, 0⟩ r
      (by simp) hr
    exact ⟨r, hr, by simpa using h.1⟩
  · intro n i st st' h hlt
    have := sortArrayFor_inversions n i st st' h
    omega
  · intro n i st st' h
    have := sortArrayFor_inversions n i st st' h
    have := (sortArrayFor_spec n i st st' h).2.2
    omega

/-- C15: best case.  On a record set already in non-decreasing byte-wise order
(of any length, 0 and 1 included) `sortArray` ends after exactly one pass, with
`count - 1` comparisons (none for an empty array), no swap, and the array as it
was; so it is for the single record `x`. -/
theorem sortArray_best_case (R : List Str)
    (hs : ∀ (i : Nat) (h : i + 1 < R.length),
      strcmp (R.get ⟨i, Nat.lt_of_succ_lt h⟩) (R.get ⟨i + 1, h⟩) ≤ 0) :
    sortArray R R.length = some ⟨R, 0, 1, R.length - 1, 0⟩ ∧
      sortArray [bytes "x"] 1 = some ⟨[bytes "x"], 0, 1, 0, 0⟩ ∧
      sortArray [] 0 = some ⟨[], 0, 1, 0, 0⟩ := by
  refine ⟨sortArray_of_sorted R ?_, sortArrayWhile_of_iter 2 _ _ _ (by decide),
    sortArrayWhile_of_iter 2 _ _ _ (by decide)⟩
  intro j _ _ x y hx hy
  have hj : j + 1 < R.length := by
    rcases Nat.lt_or_ge (j + 1) R.length with h | h
    · exact h
    · rw [List.getElem?_eq_none h] at hy; cases hy
  have h := hs j hj
  rw [List.getElem?_eq_getElem (Nat.lt_of_succ_lt hj)] at hx
  rw [List.getElem?_eq_getElem hj] at hy
  cases hx; cases hy
  exact h

/-- Witness of C15: the sorted records `apple`, `banana`, `cherry`. -/
theorem sortArray_best_case_witness :
    sortArray [bytes "apple", bytes "banana", bytes "cherry"] 3 =
      some ⟨[bytes "apple", bytes "banana", bytes "cherry"], 0, 1, 2, 0⟩ :=
  (sortArray_best_case [bytes "apple", bytes "banana", bytes "cherry"] (by
    intro i h
    have hi : i < 2 := by
      simp only [List.length_cons, List.length_nil] at h
      omega
    interval_cases i
    · exact (by decide : strcmp (bytes "apple") (bytes "banana") ≤ 0)
    · exact (by decide : strcmp (bytes "banana") (bytes "cherry") ≤ 0))).1

/-- C16: round trip, read after write.  For a record set `R` of `n > 0` strings
(`n` an `int`), none with a newline and each of at most 126 bytes, the text
`writeArray` writes for `R` loads: the header line is read back as the count
`n`, which the header check accepts, and `readArray` returns 1 with exactly the
strings of `R` in their order. -/
theorem read_write_roundtrip (R : List Str) (hpos : 0 < R.length)
    (hn : R.length < 2 ^ 31) (hl : ∀ s ∈ R, TextLine s) :
    ∃ out, writeArray R R.length true = some (.written out) ∧
      LoadsAs out R.length R ∧
      (∃ inputLine body, fgets 128 out = some (inputLine, body) ∧
        headerCount inputLine = R.length ∧ headerCount inputLine ≠ 0 ∧
        (readArray R.length body).bOk = 1 ∧ (readArray R.length body).array = R) := by
  refine ⟨_, writeArray_eq R _ true rfl, written_loadsAs R hn hl, ?_⟩
  obtain ⟨inputLine, body, h1, h2, h3⟩ := written_loadsAs R hn hl
  refine ⟨inputLine, body, h1, h2, ?_, by rw [h3], by rw [h3]⟩
  rw [h2]
  omega

/-- Witness of C16: the records `b`, a blank-edged ` a `, and the empty string. -/
theorem read_write_roundtrip_witness :
    ∃ out, writeArray [bytes "b", bytes " a ", []] 3 true = some (.written out) ∧
      LoadsAs out 3 [bytes "b", bytes " a ", []] := by
  obtain ⟨out, h1, h2, _⟩ := read_write_roundtrip [bytes "b", bytes " a ", []]
    (by decide) (by decide) (by decide)
  exact ⟨out, h1, h2⟩

/-! ## Lines longer than the line buffer -/

/-- The function `fgetsAux` on a line longer than the room left: it stores the
first `k` bytes and leaves the others in the stream. -/
theorem fgetsAux_long (k : Nat) (l tail : List Nat) (hnl : 10 ∉ l) (hk : k ≤ l.length) :
    fgetsAux k (l ++ tail) = (l.take k, l.drop k ++ tail) := by
  induction k generalizing l with
  | zero => simp [fgetsAux]
  | succ k ih =>
    cases l with
    | nil => simp at hk
    | cons c l =>
      have hc : ¬ c = 10 := fun e => hnl (by simp [e])
      have hl : 10 ∉ l := fun e => hnl (by simp [e])
      simp only [List.cons_append, fgetsAux, hc, if_false, List.append_eq]
      rw [ih l hl (by simpa using hk)]
      simp

/-- C20: a data line of 128 bytes or more with its newline is not stored as one
record.  `fgets` returns its first 127 bytes, which `readArray` stores as one
record, and the rest of the line stays in the stream and fills the following
record(s); when the rest fits the buffer, two records hold the one line and the
stream is left at the line that follows, so that line is not the second record. -/
theorem readArray_splits_long_line (l : Str) (rest : List Nat)
    (h0 : 0 ∉ l) (hnl : 10 ∉ l) (hlen : 128 ≤ l.length + 1) :
    fgets 128 (l ++ 10 :: rest) = some (l.take 127, l.drop 127 ++ 10 :: rest) ∧
      (l.take 127).length = 127 ∧ l.take 127 ++ l.drop 127 = l ∧
      (∀ (n : Nat) (array : List Str),
        readArrayFor (n + 1) array (l ++ 10 :: rest) =
          readArrayFor n (array ++ [l.take 127]) (l.drop 127 ++ 10 :: rest)) ∧
      (readArray 1 (l ++ 10 :: rest)) = ⟨1, [l.take 127], l.drop 127 ++ 10 :: rest⟩ ∧
      (l.length ≤ 253 →
        readArray 2 (l ++ 10 :: rest) = ⟨1, [l.take 127, l.drop 127], rest⟩) := by
  have hf : fgets 128 (l ++ 10 :: rest) = some (l.take 127, l.drop 127 ++ 10 :: rest) := by
    have h := fgetsAux_long 127 l (10 :: rest) hnl (by omega)
    cases l with
    | nil => simp at hlen
    | cons c t => simpa [fgets] using h
  have hstrip : stripNewline (l.take 127) = l.take 127 :=
    stripNewline_unterminated _ (fun h => h0 (List.mem_of_mem_take h))
      (fun h => hnl (List.mem_of_mem_take h))
  have hstep : ∀ (n : Nat) (array : List Str),
      readArrayFor (n + 1) array (l ++ 10 :: rest) =
        readArrayFor n (array ++ [l.take 127]) (l.drop 127 ++ 10 :: rest) := by
    intro n array
    simp only [readArrayFor, hf, hstrip]
  refine ⟨hf, by simp; omega, List.take_append_drop 127 l, hstep, ?_, ?_⟩
  · have := hstep 0 []
    simpa [readArray, readArrayFor] using this
  · intro h253
    have h2 := hstep 1 []
    have hfd : fgets 128 (l.drop 127 ++ 10 :: rest) = some (l.drop 127 ++ [10], rest) :=
      fgets_line (l.drop 127) rest (fun h => hnl (List.mem_of_mem_drop h))
        (by simp only [List.length_drop]; omega)
    have hsd : stripNewline (l.drop 127 ++ [10]) = l.drop 127 :=
      stripNewline_line _ (fun h => h0 (List.mem_of_mem_drop h))
    show readArrayFor (1 + 1) [] (l ++ 10 :: rest) = _
    rw [h2]
    simp only [readArrayFor, hfd, hsd, List.nil_append, List.singleton_append]

/-- Witness of C20: a line of 130 letters `a` followed by the line `next`. -/
theorem readArray_splits_long_line_witness :
    readArray 2 (List.replicate 130 97 ++ 10 :: bytes "next\n") =
      ⟨1, [List.replicate 127 97, List.replicate 3 97], bytes "next\n"⟩ := by
  have h := (readArray_splits_long_line (List.replicate 130 97) (bytes "next\n")
    (by simp [List.mem_replicate]) (by simp [List.mem_replicate]) (by simp)).2.2.2.2.2
    (by simp)
  simpa [List.take_replicate, List.drop_replicate] using h

/-! ## The byte-wise order on C strings -/

/-- A string compares equal to itself. -/
theorem strcmp_self (a : Str) : strcmp a a = 0 := by
  induction a with
  | nil => rfl
  | cons x a ih => simpa [strcmp] using ih

/-- On strings without NUL byte `strcmp` is transitive. -/
theorem strcmp_trans (a b c : Str) (ha : 0 ∉ a) (hb : 0 ∉ b)
    (hab : strcmp a b ≤ 0) (hbc : strcmp b c ≤ 0) : strcmp a c ≤ 0 := by
  induction a generalizing b c with
  | nil => cases c <;> simp [strcmp]
  | cons x a ih =>
    have hx : x ≠ 0 := fun e => ha (by simp [e])
    have ha' : 0 ∉ a := fun e => ha (by simp [e])
    cases b with
    | nil => simp only [strcmp] at hab; omega
    | cons y b =>
      have hy : y ≠ 0 := fun e => hb (by simp [e])
      have hb' : 0 ∉ b := fun e => hb (by simp [e])
      cases c with
      | nil => simp only [strcmp] at hbc; omega
      | cons z c =>
        simp only [strcmp] at hab hbc ⊢
        by_cases hxy : x = y
        · subst hxy
          rw [if_pos rfl] at hab
          by_cases hxz : x = z
          · subst hxz
            rw [if_pos rfl] at hbc ⊢
            exact ih b c ha' hb' hab hbc
          · rw [if_neg hxz] at hbc ⊢
            exact hbc
        · rw [if_neg hxy] at hab
          by_cases hyz : y = z
          · subst hyz
            rw [if_neg hxy]
            exact hab
          · rw [if_neg hyz] at hbc
            have hxz : ¬ x = z := by omega
            rw [if_neg hxz]
            omega

/-- On strings without NUL byte `strcmp` returns 0 only for equal strings. -/
theorem strcmp_eq_zero (a b : Str) (ha : 0 ∉ a) (hb : 0 ∉ b) (h : strcmp a b = 0) :
    a = b := by
  induction a generalizing b with
  | nil =>
    cases b with
    | nil => rfl
    | cons y b =>
      have hy : y ≠ 0 := fun e => hb (by simp [e])
      simp only [strcmp] at h
      omega
  | cons x a ih =>
    have hx : x ≠ 0 := fun e => ha (by simp [e])
    cases b with
    | nil => simp only [strcmp] at h; omega
    | cons y b =>
      simp only [strcmp] at h
      by_cases hxy : x = y
      · subst hxy
        rw [if_pos rfl] at h
        rw [ih b (fun e => ha (by simp [e])) (fun e => hb (by simp [e])) h]
      · rw [if_neg hxy] at h
        omega

/-- Adjacent order gives pairwise order on strings without NUL byte. -/
theorem pairwise_of_adjSorted (l : List Str) (h0 : ∀ s ∈ l, 0 ∉ s)
    (hs : AdjSorted l 0 l.length) : l.Pairwise (fun x y => strcmp x y ≤ 0) := by
  induction l with
  | nil => exact List.Pairwise.nil
  | cons a l ih =>
    have htail : AdjSorted l 0 l.length := by
      intro j h1 h2 x y hx hy
      exact hs (j + 1) (by omega) (by simp only [List.length_cons]; omega) x y
        (by simpa using hx) (by simpa using hy)
    have hp := ih (fun s hm => h0 s (by simp [hm])) htail
    refine List.Pairwise.cons ?_ hp
    intro b hb
    cases l with
    | nil => simp at hb
    | cons c l =>
      have hac : strcmp a c ≤ 0 := hs 0 (Nat.le_refl 0) (by simp) a c (by simp) (by simp)
      rcases List.mem_cons.1 hb with e | hm
      · rw [e]; exact hac
      · exact strcmp_trans a c b (h0 a (by simp)) (h0 c (by simp)) hac
          (List.rel_of_pairwise_cons hp hm)

/-- Pairwise order gives adjacent order. -/
theorem adjSorted_of_pairwise (l : List Str) (hp : l.Pairwise (fun x y => strcmp x y ≤ 0)) :
    AdjSorted l 0 l.length := by
  induction l with
  | nil => intro j _ h2; simp at h2
  | cons a l ih =>
    intro j _ _ x y hx hy
    cases j with
    | zero =>
      simp only [List.getElem?_cons_zero, Option.some.injEq] at hx
      simp only [Nat.zero_add, List.getElem?_cons_succ] at hy
      subst hx
      exact List.rel_of_pairwise_cons hp (List.getElem?_mem hy)
    | succ j =>
      simp only [List.getElem?_cons_succ] at hx hy
      have hl : j + 1 < l.length := by
        rcases Nat.lt_or_ge (j + 1) l.length with h | h
        · exact h
        · rw [List.getElem?_eq_none h] at hy; cases hy
      exact ih (List.Pairwise.of_cons hp) j (Nat.zero_le j) (by omega) x y hx hy

/-- Two lists in pairwise order with the same strings, none with a NUL byte,
are equal. -/
theorem eq_of_perm_of_pairwise (l₁ l₂ : List Str) (h0 : ∀ s ∈ l₁, 0 ∉ s)
    (hp : l₁.Perm l₂) (h₁ : l₁.Pairwise (fun x y => strcmp x y ≤ 0))
    (h₂ : l₂.Pairwise (fun x y => strcmp x y ≤ 0)) : l₁ = l₂ := by
  induction l₁ generalizing l₂ with
  | nil => exact (List.Perm.nil_eq hp)
  | cons a l₁ ih =>
    cases l₂ with
    | nil => exact absurd hp.length_eq (by simp)
    | cons b l₂ =>
      have hab : a = b := by
        have ha2 : a ∈ b :: l₂ := hp.subset (by simp)
        have hb1 : b ∈ a :: l₁ := hp.symm.subset (by simp)
        rcases List.mem_cons.1 ha2 with e | ha2
        · exact e
        rcases List.mem_cons.1 hb1 with e | hb1
        · exact e.symm
        have h1 : strcmp a b ≤ 0 := List.rel_of_pairwise_cons h₁ hb1
        have h2 : strcmp b a ≤ 0 := List.rel_of_pairwise_cons h₂ ha2
        have h3 := strcmp_swap a b
        exact strcmp_eq_zero a b (h0 a (by simp)) (h0 b (by simp [hb1])) (by omega)
      subst hab
      rw [ih l₂ (fun s hm => h0 s (by simp [hm])) (List.Perm.cons_inv hp)
        (List.Pairwise.of_cons h₁) (List.Pairwise.of_cons h₂)]

/-- The reference insertion keeps the strings. -/
theorem perm_insertByStrcmp (s : Str) (l : List Str) : (insertByStrcmp s l).Perm (s :: l) := by
  induction l with
  | nil => exact List.Perm.refl _
  | cons t l ih =>
    unfold insertByStrcmp
    split
    · exact List.Perm.refl _
    · exact (List.Perm.cons t ih).trans (List.Perm.swap s t l)

/-- The reference sort keeps the strings. -/
theorem perm_referenceSort (l : List Str) : (referenceSort l).Perm l := by
  induction l with
  | nil => exact List.Perm.refl _
  | cons s l ih =>
    exact (perm_insertByStrcmp s (referenceSort l)).trans (List.Perm.cons s ih)

/-- The reference insertion keeps a list in pairwise order. -/
theorem pairwise_insertByStrcmp (s : Str) (l : List Str) (hs : 0 ∉ s)
    (h0 : ∀ t ∈ l, 0 ∉ t) (hp : l.Pairwise (fun x y => strcmp x y ≤ 0)) :
    (insertByStrcmp s l).Pairwise (fun x y => strcmp x y ≤ 0) := by
  induction l with
  | nil => simp [insertByStrcmp]
  | cons t l ih =>
    unfold insertByStrcmp
    split
    · rename_i hle
      refine List.Pairwise.cons ?_ hp
      intro u hu
      rcases List.mem_cons.1 hu with e | hm
      · rw [e]; exact hle
      · exact strcmp_trans s t u hs (h0 t (by simp)) hle (List.rel_of_pairwise_cons hp hm)
    · rename_i hgt
      have hts : strcmp t s ≤ 0 := by
        have := strcmp_swap s t
        omega
      refine List.Pairwise.cons ?_
        (ih (fun u hm => h0 u (by simp [hm])) (List.Pairwise.of_cons hp))
      intro u hu
      have hu' := (perm_insertByStrcmp s l).subset hu
      rcases List.mem_cons.1 hu' with e | hm
      · rw [e]; exact hts
      · exact List.rel_of_pairwise_cons hp hm

/-- The reference sort puts strings without NUL byte in pairwise order. -/
theorem pairwise_referenceSort (l : List Str) (h0 : ∀ t ∈ l, 0 ∉ t) :
    (referenceSort l).Pairwise (fun x y => strcmp x y ≤ 0) := by
  induction l with
  | nil => exact List.Pairwise.nil
  | cons s l ih =>
    have hl : ∀ t ∈ l, 0 ∉ t := fun t hm => h0 t (by simp [hm])
    exact pairwise_insertByStrcmp s (referenceSort l) (h0 s (by simp))
      (fun t hm => hl t ((perm_referenceSort l).subset hm)) (ih hl)

/-- On C strings `sortArray` leaves the array the reference sort computes. -/
theorem sortArray_eq_reference (R : List Str) (h0 : ∀ s ∈ R, 0 ∉ s) :
    ∃ r, sortArray R R.length = some r ∧ r.array = referenceSort R := by
  obtain ⟨r, hr, hp, hs⟩ := sortArray_spec R
  have hl : r.array.length = R.length := hp.length_eq
  have h0r : ∀ s ∈ r.array, 0 ∉ s := fun s hm => h0 s (hp.subset hm)
  refine ⟨r, hr, ?_⟩
  exact eq_of_perm_of_pairwise _ _ h0r (hp.trans (perm_referenceSort R).symm)
    (pairwise_of_adjSorted _ h0r (by rw [hl]; exact hs)) (pairwise_referenceSort R h0)

/-! ## The claim about the reference sort -/

/-- C18: for every record set `R` of C strings (no NUL byte inside a string)
the array `sortArray` leaves is the result of the reference insertion sort of
`R` under byte-wise order; hence two arrays that are permutations of each other
are sorted to the same sequence of strings. -/
theorem sortArray_agrees_with_reference (R : List Str) (h0 : ∀ s ∈ R, 0 ∉ s) :
    (∃ r, sortArray R R.length = some r ∧ r.array = referenceSort R) ∧
      (∀ R' : List Str, R'.Perm R →
        ∃ r r', sortArray R R.length = some r ∧ sortArray R' R'.length = some r' ∧
          r'.array = r.array) := by
  refine ⟨sortArray_eq_reference R h0, ?_⟩
  intro R' hperm
  have h0' : ∀ s ∈ R', 0 ∉ s := fun s hm => h0 s (hperm.subset hm)
  obtain ⟨r, hr, he⟩ := sortArray_eq_reference R h0
  obtain ⟨r', hr', he'⟩ := sortArray_eq_reference R' h0'
  refine ⟨r, r', hr, hr', ?_⟩
  rw [he, he']
  have hR := pairwise_referenceSort R h0
  have hR' := pairwise_referenceSort R' h0'
  exact eq_of_perm_of_pairwise _ _
    (fun s hm => h0' s ((perm_referenceSort R').subset hm))
    (((perm_referenceSort R').trans hperm).trans (perm_referenceSort R).symm) hR' hR

/-- Witness of C18: the records `b`, `a`, `b`. -/
theorem sortArray_agrees_with_reference_witness :
    ∃ r, sortArray [bytes "b", bytes "a", bytes "b"] 3 = some r ∧
      r.array = [bytes "a", bytes "b", bytes "b"] := by
  obtain ⟨r, hr, he⟩ := (sortArray_agrees_with_reference [bytes "b", bytes "a", bytes "b"]
    (by decide)).1
  exact ⟨r, hr, he.trans (by decide)⟩

/-! ## The passes of `sortArray` -/

/-- The two slots the loop reads at index `pre.length`. -/
theorem getElem?_at_split (pre : List Str) (a b : Str) (post : List Str) :
    (pre ++ a :: b :: post)[pre.length]? = some a ∧
      (pre ++ a :: b :: post)[pre.length + 1]? = some b := by
  induction pre with
  | nil => simp
  | cons c pre ih => simpa using ih

/-- The function `swapStrings` at the end of a prefix. -/
theorem swapStrings_at_split (pre : List Str) (a b : Str) (post : List Str) :
    swapStrings (pre ++ a :: b :: post) pre.length (pre.length + 1) =
      some (pre ++ b :: a :: post) := by
  obtain ⟨ha, hb⟩ := getElem?_at_split pre a b post
  obtain ⟨pre', post', h1, h2, h3⟩ := swap_adjacent_decomp _ _ a b ha hb
  obtain ⟨e1, e2⟩ := List.append_inj h1 h2.symm
  simp only [List.cons.injEq, true_and] at e2
  subst e1; subst e2
  simp only [swapStrings, ha, hb, h3]

/-- The `for` loop of `sortArray`, run over the slots after a prefix, is the
pass on the list: it leaves `bubbleInit`, carries `bubbleLast` to the slot where
it stops, and counts `bubbleSwaps` swaps and one comparison per slot. -/
theorem sortArrayFor_bubble (l : List Str) (pre : List Str) (a : Str) (rest : List Str)
    (sc c : Nat) :
    sortArrayFor l.length pre.length ⟨pre ++ a :: (l ++ rest), sc, c⟩ =
      some ⟨pre ++ bubbleInit a l ++ bubbleLast a l :: rest, sc + bubbleSwaps a l,
        c + l.length⟩ := by
  induction l generalizing pre a sc c with
  | nil => simp [sortArrayFor, bubbleInit, bubbleLast, bubbleSwaps]
  | cons b l ih =>
    obtain ⟨ha, hb⟩ := getElem?_at_split pre a b (l ++ rest)
    simp only [List.length_cons, List.cons_append, sortArrayFor, ha, hb]
    by_cases hgt : strcmp a b > 0
    · rw [if_pos hgt, swapStrings_at_split]
      have h := ih (pre ++ [b]) a (sc + 1) (c + 1)
      simp only [List.length_append, List.length_singleton, List.append_assoc,
        List.singleton_append] at h
      simp only [h, bubbleInit, bubbleLast, bubbleSwaps, if_pos hgt, List.cons_append,
        ForState.mk.injEq, Option.some.injEq, true_and]
      exact ⟨by simp, by omega, by omega⟩
    · rw [if_neg hgt]
      have h := ih (pre ++ [a]) b sc (c + 1)
      simp only [List.length_append, List.length_singleton, List.append_assoc,
        List.singleton_append] at h
      simp only [h, bubbleInit, bubbleLast, bubbleSwaps, if_neg hgt, List.cons_append,
        ForState.mk.injEq, Option.some.injEq, true_and]
      exact ⟨by simp, by omega⟩

/-- A pass through `l₁ ++ l₂` is a pass through `l₁` followed by a pass through
`l₂` that carries on what the first one carried out. -/
theorem bubble_append (l₁ l₂ : List Str) (a : Str) :
    bubbleInit a (l₁ ++ l₂) = bubbleInit a l₁ ++ bubbleInit (bubbleLast a l₁) l₂ ∧
      bubbleLast a (l₁ ++ l₂) = bubbleLast (bubbleLast a l₁) l₂ := by
  induction l₁ generalizing a with
  | nil => simp [bubbleInit, bubbleLast]
  | cons b l₁ ih =>
    by_cases hgt : strcmp a b > 0
    · simp [bubbleInit, bubbleLast, hgt, (ih a).1, (ih a).2]
    · simp [bubbleInit, bubbleLast, hgt, (ih b).1, (ih b).2]

/-- A pass swaps nothing in a stretch in order whose strings the carried one
does not exceed. -/
theorem bubble_sorted_tail (back : List Str) (m : Str)
    (hm : ∀ y ∈ back, strcmp m y ≤ 0)
    (hp : back.Pairwise (fun x y => strcmp x y ≤ 0)) :
    bubbleInit m back ++ [bubbleLast m back] = m :: back := by
  induction back generalizing m with
  | nil => simp [bubbleInit, bubbleLast]
  | cons b back ih =>
    have hmb : ¬ strcmp m b > 0 := by
      have := hm b (by simp)
      omega
    simp only [bubbleInit, bubbleLast, if_neg hmb, List.cons_append]
    rw [ih b (fun y hy => List.rel_of_pairwise_cons hp hy) (List.Pairwise.of_cons hp)]

/-- A pass keeps the strings. -/
theorem bubble_perm (l : List Str) (a : Str) :
    (bubbleInit a l ++ [bubbleLast a l]).Perm (a :: l) := by
  induction l generalizing a with
  | nil => simp [bubbleInit, bubbleLast]
  | cons b l ih =>
    by_cases hgt : strcmp a b > 0
    · simp only [bubbleInit, bubbleLast, if_pos hgt, List.cons_append]
      exact (List.Perm.cons b (ih a)).trans (List.Perm.swap a b l)
    · simp only [bubbleInit, bubbleLast, if_neg hgt, List.cons_append]
      exact List.Perm.cons a (ih b)

/-- A pass carries out a string that none of the strings it went through
exceeds (C strings). -/
theorem bubbleLast_max (l : List Str) (a : Str) (h0 : ∀ s ∈ a :: l, 0 ∉ s) :
    ∀ x ∈ a :: l, strcmp x (bubbleLast a l) ≤ 0 := by
  induction l generalizing a with
  | nil =>
    intro x hx
    simp only [List.mem_singleton] at hx
    subst hx
    simp [bubbleLast, strcmp_self]
  | cons b l ih =>
    have ha : 0 ∉ a := h0 a (by simp)
    have hb : 0 ∉ b := h0 b (by simp)
    intro x hx
    by_cases hgt : strcmp a b > 0
    · simp only [bubbleLast, if_pos hgt]
      have hmax := ih a (fun s hs => h0 s (by
        rcases List.mem_cons.1 hs with e | hm
        · simp [e]
        · simp [hm]))
      rcases List.mem_cons.1 hx with e | hx'
      · exact hmax x (by simp [e])
      rcases List.mem_cons.1 hx' with e | hx''
      · have hba : strcmp b a ≤ 0 := by
          have := strcmp_swap a b
          omega
        rw [e]
        exact strcmp_trans b a _ hb ha hba (hmax a (by simp))
      · exact hmax x (by simp [hx''])
    · simp only [bubbleLast, if_neg hgt]
      have hmax := ih b (fun s hs => h0 s (by simp [hs]))
      rcases List.mem_cons.1 hx with e | hx'
      · rw [e]
        exact strcmp_trans a b _ ha hb (by omega) (hmax b (by simp))
      · exact hmax x hx'

/-- A pass of the whole array, as the `while` loop of `sortArray` runs it. -/
theorem sortArrayFor_pass (a : Str) (l : List Str) :
    sortArrayFor (((a :: l).length : Int) - 1).toNat 0 ⟨a :: l, 0, 0⟩ =
      some ⟨bubbleInit a l ++ [bubbleLast a l], bubbleSwaps a l, l.length⟩ := by
  have h := sortArrayFor_bubble l [] a [] 0 0
  have e : (((a :: l).length : Int) - 1).toNat = l.length := by
    simp only [List.length_cons]
    omega
  rw [e]
  simpa using h

/-- Each pass puts one string more in its final position: after a pass the
sorted tail is longer by one (C strings). -/
theorem tailSorted_step (a : Str) (l : List Str) (k : Nat) (h0 : ∀ s ∈ a :: l, 0 ∉ s)
    (hk : k < (a :: l).length) (ht : TailSorted k (a :: l)) :
    TailSorted (k + 1) (bubbleInit a l ++ [bubbleLast a l]) := by
  obtain ⟨front, back, he, hlen, hp, hfb⟩ := ht
  cases front with
  | nil =>
    have := congrArg List.length he
    simp only [List.nil_append] at this
    omega
  | cons a' f =>
    simp only [List.cons_append, List.cons.injEq] at he
    obtain ⟨e1, e2⟩ := he
    subst e1; subst e2
    have hperm := bubble_perm f a
    have hmem : bubbleLast a f ∈ a :: f := hperm.subset (by simp)
    have hm : ∀ y ∈ back, strcmp (bubbleLast a f) y ≤ 0 := fun y hy => hfb _ hmem y hy
    have htail := bubble_sorted_tail back (bubbleLast a f) hm hp
    have hmax := bubbleLast_max f a (fun s hs => h0 s (by
      rcases List.mem_cons.1 hs with e | hs'
      · simp [e]
      · simp [hs']))
    refine ⟨bubbleInit a f, bubbleLast a f :: back, ?_, by simp [hlen],
      List.Pairwise.cons hm hp, ?_⟩
    · rw [(bubble_append f back a).1, (bubble_append f back a).2, List.append_assoc, htail]
    · intro x hx y hy
      have hx' : x ∈ a :: f := hperm.subset (by simp [hx])
      rcases List.mem_cons.1 hy with e | hy'
      · rw [e]; exact hmax x hx'
      · exact hfb x hx' y hy'

/-- An array whose sorted tail leaves out one slot at most is in order. -/
theorem pairwise_of_tailSorted (array : List Str) (k : Nat) (ht : TailSorted k array)
    (hk : array.length ≤ k + 1) : array.Pairwise (fun x y => strcmp x y ≤ 0) := by
  obtain ⟨front, back, he, hlen, hp, hfb⟩ := ht
  subst he
  cases front with
  | nil => simpa using hp
  | cons x f =>
    cases f with
    | nil => exact List.Pairwise.cons (fun y hy => hfb x (by simp) y hy) hp
    | cons z f =>
      simp only [List.cons_append, List.length_cons, List.length_append] at hk
      omega

/-- The `while` loop makes at most one pass per slot outside the sorted tail
(C strings). -/
theorem sortArrayWhile_pass_bound (d : Nat) (n : Int) (k : Nat) (st r : SortState)
    (hn : n = st.array.length) (h0 : ∀ s ∈ st.array, 0 ∉ s)
    (ht : TailSorted k st.array) (hd : k + d + 1 = st.array.length)
    (hr : sortArrayWhile n st = some r) : r.passes ≤ st.passes + d + 1 := by
  induction d generalizing k st with
  | zero =>
    rw [sortArrayWhile_eq] at hr
    by_cases hpos : st.swapCount > 0
    · rw [if_pos hpos] at hr
      have hsorted := adjSorted_of_pairwise _ (pairwise_of_tailSorted _ k ht (by omega))
      have hfor := sortArrayFor_sorted (n - 1).toNat 0 ⟨st.array, 0, 0⟩
        (by simp only; omega) (fun j h1 h2 => hsorted j h1 (by omega))
      rw [hfor] at hr
      simp only at hr
      rw [sortArrayWhile_eq] at hr
      simp only [gt_iff_lt, Nat.lt_irrefl, if_false, Option.some.injEq] at hr
      subst hr
      simp
    · rw [if_neg hpos] at hr
      cases hr
      omega
  | succ d ih =>
    rw [sortArrayWhile_eq] at hr
    by_cases hpos : st.swapCount > 0
    · rw [if_pos hpos] at hr
      obtain ⟨array, sc, p, c, sw⟩ := st
      simp only at hr hn h0 ht hd hpos ⊢
      cases array with
      | nil => simp at hd
      | cons a l =>
        subst hn
        rw [sortArrayFor_pass a l] at hr
        simp only at hr
        have hperm := bubble_perm l a
        have hstep := tailSorted_step a l k h0 (by omega) ht
        have h := ih (k + 1)
          ⟨bubbleInit a l ++ [bubbleLast a l], bubbleSwaps a l, p + 1, c + l.length,
            sw + bubbleSwaps a l⟩
          (by simp only; rw [hperm.length_eq])
          (fun s hs => h0 s (hperm.subset hs)) hstep
          (by simp only; rw [hperm.length_eq]; omega) hr
        simp only at h
        omega
    · rw [if_neg hpos] at hr
      cases hr
      omega

/-! ## The claim about the number of passes -/

/-- C19: for every array of `n ≥ 1` C strings the `while` loop of `sortArray`
runs at most `n` passes, the last one without a swap, each of `n - 1`
comparisons, hence at most `n * (n - 1)` comparisons in all; the reason is that
each pass lengthens by one the tail of the array that holds, in order, strings
in their final positions. -/
theorem sortArray_pass_bound (R : List Str) (hn : 1 ≤ R.length) (h0 : ∀ s ∈ R, 0 ∉ s) :
    (∃ r, sortArray R R.length = some r ∧ r.swapCount = 0 ∧ r.passes ≤ R.length ∧
      r.comparisons = r.passes * (R.length - 1) ∧
      r.comparisons ≤ R.length * (R.length - 1)) ∧
      TailSorted 0 R ∧
      (∀ (k : Nat) (array : List Str) (fs : ForState), (∀ s ∈ array, 0 ∉ s) →
        TailSorted k array → k < array.length →
        sortArrayFor ((array.length : Int) - 1).toNat 0 ⟨array, 0, 0⟩ = some fs →
        TailSorted (k + 1) fs.array) := by
  have ht0 : TailSorted 0 R :=
    ⟨R, [], by simp, rfl, List.Pairwise.nil, fun _ _ y hy => by simp at hy⟩
  refine ⟨?_, ht0, ?_⟩
  · obtain ⟨r, hr, _, hsc, _, _⟩ := sortArrayWhile_spec (R.length : Int) (inversions R + 1)
      ⟨R, 1, 0, 0, 0⟩ (by simp) (by simp)
    have hb := sortArrayWhile_pass_bound (R.length - 1) (R.length : Int) 0 ⟨R, 1, 0, 0, 0⟩ r
      rfl h0 ht0 (by simp only; omega) hr
    have hc := (sortArrayWhile_passes (R.length : Int) (inversions R + 1) ⟨R, 1, 0, 0, 0⟩ r
      (by simp) hr).2.2
    simp only [Nat.zero_add, Nat.sub_zero] at hb hc
    have e : ((R.length : Int) - 1).toNat = R.length - 1 := by omega
    rw [e] at hc
    have hp : r.passes ≤ R.length := by omega
    refine ⟨r, hr, hsc, hp, hc, ?_⟩
    rw [hc]
    exact Nat.mul_le_mul_right _ hp
  · intro k array fs h0a ht hk hfs
    cases array with
    | nil => simp at hk
    | cons a l =>
      rw [sortArrayFor_pass a l] at hfs
      cases hfs
      exact tailSorted_step a l k h0a hk ht

/-- Witness of C19: the records `c`, `b`, `a`, sorted in three passes. -/
theorem sortArray_pass_bound_witness :
    ∃ r, sortArray [bytes "c", bytes "b", bytes "a"] 3 = some r ∧ r.swapCount = 0 ∧
      r.passes ≤ 3 ∧ r.comparisons = r.passes * 2 ∧ r.comparisons ≤ 6 :=
  (sortArray_pass_bound [bytes "c", bytes "b", bytes "a"] (by decide) (by decide)).1

end NewBubble
